import Mathlib

/-!
Verification development for the TUCAN-string → molecular-graph conversion
module (`tucan_gnn/conversion.py`).

Strings are modelled as `List Char` (named `Str`) over the ASCII character
classes the module's regexes use (`\d+` digit runs, `[A-Z][^A-Z]*` capital
segments); Python `dict`s are modelled as insertion-ordered association
lists in which re-assignment keeps the original position (`pyDictInsert`);
fallible code returns `Except Err`.  The external `tucan.element_properties`
lookup table (spec: a fixed bidirectional symbol ↔ atomic-number table) is
given concretely as the 118 periodic-table symbols.
-/

set_option maxHeartbeats 2000000

abbrev Str := List Char

/-- ASCII digit class, the `\d` of the module's `re.split("(\d+)", ...)`. -/
def isDig (c : Char) : Bool := 48 ≤ c.toNat && c.toNat ≤ 57

/-- ASCII uppercase class, the `[A-Z]` of `re.findall('[A-Z][^A-Z]*', ...)`. -/
def isUp (c : Char) : Bool := 65 ≤ c.toNat && c.toNat ≤ 90

/-- ASCII lowercase class. -/
def isLow (c : Char) : Bool := 97 ≤ c.toNat && c.toNat ≤ 122

/-- ASCII letter class, modelling `str.isalpha` on the ASCII inputs assumed by the spec. -/
def isAlph (c : Char) : Bool := isUp c || isLow c

/-- ASCII whitespace stripped by Python `int()` before parsing. -/
def isWs (c : Char) : Bool :=
  c.toNat = 32 || c.toNat = 9 || c.toNat = 10 || c.toNat = 11 || c.toNat = 12 || c.toNat = 13

/-- Errors a conversion call can raise: `ValueError` from `int()`, `KeyError`
from a dict lookup (string or integer key), `IndexError` from indexing. -/
inductive Err where
  | intParse (t : Str)
  | keyError (s : Str)
  | keyErrorN (n : Nat)
  | indexError
deriving DecidableEq

deriving instance DecidableEq for Except

/-- Python dict assignment `m[k] = v`: overwrite in place if the key exists
(keeping its insertion position), else append. -/
def pyDictInsert {α β : Type} [DecidableEq α] (m : List (α × β)) (k : α) (v : β) :
    List (α × β) :=
  if m.any (fun p => decide (p.1 = k)) then
    m.map (fun p => if p.1 = k then (k, v) else p)
  else m ++ [(k, v)]

/-- Python dict lookup `m[k]` (as an `Option`; `none` is a `KeyError`). -/
def pyDictGet? {α β : Type} [DecidableEq α] (m : List (α × β)) (k : α) : Option β :=
  (m.find? (fun p => decide (p.1 = k))).map Prod.snd

/-- Strip leading and trailing whitespace, as Python `int()` does. -/
def pyStrip (cs : Str) : Str := ((cs.dropWhile isWs).reverse.dropWhile isWs).reverse

/-- Decimal value of a digit string. -/
def digitsVal (cs : Str) : Nat := cs.foldl (fun n c => 10 * n + (c.toNat - 48)) 0

/-- Digit-part grammar of Python `int()`: nonempty digits with single
underscores allowed between digits (`1_0` parses, `_1`, `1_`, `1__0` do not). -/
def undOk (cs : Str) : Bool :=
  !cs.isEmpty && cs.all (fun c => isDig c || decide (c = '_')) &&
    isDig (cs.headD '_') && isDig (cs.getLastD '_') &&
    (cs.zip cs.tail).all (fun p => !(decide (p.1 = '_') && decide (p.2 = '_')))

/-- Value of a digit-with-underscores string. -/
def pyIntVal (cs : Str) : Int := Int.ofNat (digitsVal (cs.filter (fun c => !decide (c = '_'))))

/-- Body of `int()` after stripping: optional sign, then the digit grammar. -/
def pyIntCore (t cs : Str) : Except Err Int :=
  if t.headD ' ' = '+' then
    (if undOk t.tail then .ok (pyIntVal t.tail) else .error (.intParse cs))
  else if t.headD ' ' = '-' then
    (if undOk t.tail then .ok (-(pyIntVal t.tail)) else .error (.intParse cs))
  else if undOk t then .ok (pyIntVal t) else .error (.intParse cs)

/-- Python `int(s)` on a base-10 string, `ValueError` as `Err.intParse`. -/
def pyInt (cs : Str) : Except Err Int := pyIntCore (pyStrip cs) cs

/-- Error-propagating left fold: a `for` loop whose body may raise. -/
def foldE {α β : Type} (f : β → α → Except Err β) : β → List α → Except Err β
  | b, [] => .ok b
  | b, a :: as =>
    match f b a with
    | .error e => .error e
    | .ok b' => foldE f b' as

/-- Error-propagating map: a list comprehension whose body may raise. -/
def mapE {α β : Type} (f : α → Except Err β) : List α → Except Err (List β)
  | [] => .ok []
  | a :: as =>
    match f a with
    | .error e => .error e
    | .ok b =>
      match mapE f as with
      | .error e => .error e
      | .ok bs => .ok (b :: bs)

/-- State machine for `re.split("(\d+)", s)`: mode `false` accumulates a
non-digit token, mode `true` a digit run; the result alternates non-digit and
digit tokens, beginning and ending with a (possibly empty) non-digit token. -/
def reSplitAux : Bool → Str → Str → List Str
  | false, acc, [] => [acc.reverse]
  | false, acc, c :: cs =>
    if isDig c then acc.reverse :: reSplitAux true [c] cs else reSplitAux false (c :: acc) cs
  | true, acc, [] => [acc.reverse, []]
  | true, acc, c :: cs =>
    if isDig c then reSplitAux true (c :: acc) cs else acc.reverse :: reSplitAux false [c] cs

/-- Model of `re.split("(\d+)", s)` (capturing split on maximal digit runs). -/
def reSplitDigits (cs : Str) : List Str := reSplitAux false [] cs

/-- State machine for `re.findall('[A-Z][^A-Z]*', s)`: `none` before the first
capital (prefix discarded), `some acc` while extending the current match. -/
def findCapsAux : Option Str → Str → List Str
  | none, [] => []
  | none, c :: cs => if isUp c then findCapsAux (some [c]) cs else findCapsAux none cs
  | some acc, [] => [acc.reverse]
  | some acc, c :: cs =>
    if isUp c then acc.reverse :: findCapsAux (some [c]) cs
    else findCapsAux (some (c :: acc)) cs

/-- Model of `re.findall('[A-Z][^A-Z]*', s)`. -/
def findallCaps (cs : Str) : List Str := findCapsAux none cs

/-- Loop body of `element_count_from_sum_formula`: state is
`(previous_element, element_count)`. -/
def processToken (st : Str × List (Str × Int)) (tok : Str) :
    Except Err (Str × List (Str × Int)) :=
  match findallCaps tok with
  | [] =>
    (match pyInt tok with
     | .error e => .error e
     | .ok n => .ok (st.1, pyDictInsert st.2 st.1 n))
  | [e] => .ok (e, st.2)
  | caps => .ok (caps.getLastD [], caps.dropLast.foldl (fun d x => pyDictInsert d x 1) st.2)

/-- Python `str.isalpha()`. -/
def pyIsAlpha (cs : Str) : Bool := !cs.isEmpty && cs.all isAlph

/-- The `if split_sum_form[-1] == "": split_sum_form.pop()` step. -/
def pyPop (l : List Str) : List Str := if l.getLast? = some [] then l.dropLast else l

/-- Model of `element_count_from_sum_formula`.  The `[-1]` index is read
before the loop here; the loop over the empty list is a no-op, so the results
coincide with the source, which reads `split_sum_form[-1]` after the loop. -/
def element_count_from_sum_formula (sum_form : Str) : Except Err (List (Str × Int)) :=
  let split_sum_form := pyPop (reSplitDigits sum_form)
  match split_sum_form.getLast? with
  | none => .error .indexError
  | some last =>
    match foldE processToken ([], []) split_sum_form with
    | .error e => .error e
    | .ok st => if pyIsAlpha last then .ok (pyDictInsert st.2 st.1 1) else .ok st.2

/-- The 118 element symbols of `tucan.element_properties.element_symbols`
(spec: fixed periodic-table lookup, symbol at index `i` has atomic number `i+1`). -/
def element_symbols : List Str :=
  [['H'], ['H','e'], ['L','i'], ['B','e'], ['B'], ['C'], ['N'], ['O'], ['F'], ['N','e'],
   ['N','a'], ['M','g'], ['A','l'], ['S','i'], ['P'], ['S'], ['C','l'], ['A','r'],
   ['K'], ['C','a'], ['S','c'], ['T','i'], ['V'], ['C','r'], ['M','n'], ['F','e'],
   ['C','o'], ['N','i'], ['C','u'], ['Z','n'], ['G','a'], ['G','e'], ['A','s'],
   ['S','e'], ['B','r'], ['K','r'], ['R','b'], ['S','r'], ['Y'], ['Z','r'],
   ['N','b'], ['M','o'], ['T','c'], ['R','u'], ['R','h'], ['P','d'], ['A','g'],
   ['C','d'], ['I','n'], ['S','n'], ['S','b'], ['T','e'], ['I'], ['X','e'],
   ['C','s'], ['B','a'], ['L','a'], ['C','e'], ['P','r'], ['N','d'], ['P','m'],
   ['S','m'], ['E','u'], ['G','d'], ['T','b'], ['D','y'], ['H','o'], ['E','r'],
   ['T','m'], ['Y','b'], ['L','u'], ['H','f'], ['T','a'], ['W'], ['R','e'],
   ['O','s'], ['I','r'], ['P','t'], ['A','u'], ['H','g'], ['T','l'], ['P','b'],
   ['B','i'], ['P','o'], ['A','t'], ['R','n'], ['F','r'], ['R','a'], ['A','c'],
   ['T','h'], ['P','a'], ['U'], ['N','p'], ['P','u'], ['A','m'], ['C','m'],
   ['B','k'], ['C','f'], ['E','s'], ['F','m'], ['M','d'], ['N','o'], ['L','r'],
   ['R','f'], ['D','b'], ['S','g'], ['B','h'], ['H','s'], ['M','t'], ['D','s'],
   ['R','g'], ['C','n'], ['N','h'], ['F','l'], ['M','c'], ['L','v'], ['T','s'],
   ['O','g']]

/-- Entries of `atom_number_dict` (built by the module-level loop). -/
def atom_number_entries : List (Str × Nat) :=
  element_symbols.enum.map (fun p => (p.2, p.1 + 1))

/-- Entries of `number_atom_dict`. -/
def number_atom_entries : List (Nat × Str) :=
  element_symbols.enum.map (fun p => (p.1 + 1, p.2))

/-- Lookup in `atom_number_dict` (element symbol → atomic number). -/
def atom_number_dict (s : Str) : Option Nat := pyDictGet? atom_number_entries s

/-- Lookup in `number_atom_dict` (atomic number → element symbol). -/
def number_atom_dict (n : Nat) : Option Str := pyDictGet? number_atom_entries n

/-- Total version of the symbol → atomic-number lookup (used only to state
evaluation lemmas under a "symbol is known" hypothesis). -/
def anD (s : Str) : Nat := (atom_number_dict s).getD 0

/-- Total version of the atomic-number → symbol lookup. -/
def naD (n : Nat) : Str := (number_atom_dict n).getD []

/-- Stable insertion step of the sort modelling Python `sorted`. -/
def sInsert {α : Type} (le : α → α → Bool) (x : α) : List α → List α
  | [] => [x]
  | y :: ys => if le x y then x :: y :: ys else y :: sInsert le x ys

/-- Stable sort; Python `sorted` is also a stable sort by `le`, and a stable
sort's output is uniquely determined by `le`, so the two agree. -/
def insertionSortBy {α : Type} (le : α → α → Bool) : List α → List α
  | [] => []
  | x :: xs => sInsert le x (insertionSortBy le xs)

/-- Python tuple comparison on `(atomic number, count)` pairs. -/
def pairTupleLe (a b : Nat × Int) : Bool :=
  decide (a.1 < b.1) || (decide (a.1 = b.1) && decide (a.2 ≤ b.2))

/-- The `for i, element in enumerate(node_list): graph_nodes[i+1] = element`
loop: keys `n+1, n+2, ...` in order. -/
def enumNodes : Nat → List Str → List (Nat × Str)
  | _, [] => []
  | n, a :: as => (n + 1, a) :: enumNodes (n + 1) as

/-- Closed form of the node labeler on valid input: translate keys to atomic
numbers, sort, expand counts, enumerate from 1. -/
def nodesOf (m : List (Str × Int)) : List (Nat × Str) :=
  enumNodes 0 ((insertionSortBy pairTupleLe (m.map (fun p => (anD p.1, p.2)))).flatMap
    (fun q => List.replicate q.2.toNat (naD q.1)))

/-- One step of the dict-comprehension re-keying entries by atomic number: a
`KeyError` surfaces at the first unknown symbol. -/
def keyStep (acc : List (Nat × Int)) (p : Str × Int) : Except Err (List (Nat × Int)) :=
  match atom_number_dict p.1 with
  | none => .error (.keyError p.1)
  | some n => .ok (acc ++ [(n, p.2)])

/-- One step of the node-list expansion loop: `range(0, count)` is empty for
nonpositive counts, so the `number_atom_dict` lookup only runs for positive
counts. -/
def expandStep (acc : List Str) (q : Nat × Int) : Except Err (List Str) :=
  if q.2 ≤ 0 then .ok acc else
  match number_atom_dict q.1 with
  | none => .error (.keyErrorN q.1)
  | some e => .ok (acc ++ List.replicate q.2.toNat e)

/-- Error propagation of a dependent computation (`>>=` on `Except Err`). -/
def exceptThen {α β : Type} (g : α → Except Err β) : Except Err α → Except Err β
  | .error e => .error e
  | .ok a => g a

/-- Error propagation of a pure post-processing step (`map` on `Except Err`). -/
def exceptMap {α β : Type} (f : α → β) : Except Err α → Except Err β
  | .error e => .error e
  | .ok a => .ok (f a)

/-- Model of `graph_nodes_from_element_count`: re-key by atomic number
(`keyStep`), collapse into the `element_count_by_atom_number` dict, sort it
ascending, expand each entry `count` times (`expandStep`), and enumerate the
node list from 1. -/
def graph_nodes_from_element_count (element_count : List (Str × Int)) :
    Except Err (List (Nat × Str)) :=
  exceptThen (fun keyed =>
    exceptMap (fun node_list => enumNodes 0 node_list)
      (foldE expandStep []
        (insertionSortBy pairTupleLe
          (keyed.foldl (fun m (q : Nat × Int) => pyDictInsert m q.1 q.2) []))))
    (foldE keyStep [] element_count)

/-- One step of the symbol → atomic-number node-value conversion. -/
def convStep (acc : List (Nat × Nat)) (p : Nat × Str) : Except Err (List (Nat × Nat)) :=
  match atom_number_dict p.2 with
  | none => .error (.keyError p.2)
  | some n => .ok (pyDictInsert acc p.1 n)

/-- Model of `convert_graph_nodes_element_to_atomic_number`. -/
def convert_graph_nodes_element_to_atomic_number (graph_nodes : List (Nat × Str)) :
    Except Err (List (Nat × Nat)) :=
  foldE convStep [] graph_nodes

/-- Model of Python `s.split(sep)` for a one-character separator. -/
def pySplitAux (sep : Char) (acc : Str) : Str → List Str
  | [] => [acc.reverse]
  | c :: cs =>
    if c = sep then acc.reverse :: pySplitAux sep [] cs else pySplitAux sep (c :: acc) cs

/-- Python `s.split(sep)` (single-character separator; never empty). -/
def pySplitChar (cs : Str) (sep : Char) : List Str := pySplitAux sep [] cs

/-- Node values: element symbols by default, atomic numbers on opt-in. -/
inductive NodeVal where
  | sym (s : Str)
  | num (n : Nat)
deriving DecidableEq

/-- Model of `tucan_string_to_graph_nodes`. -/
def tucan_string_to_graph_nodes (tucan_string : Str) (use_element_symbols : Bool) :
    Except Err (List (Nat × NodeVal)) :=
  let sum_formula := (pySplitChar tucan_string '/').headD []
  match element_count_from_sum_formula sum_formula with
  | .error e => .error e
  | .ok element_counts =>
    match graph_nodes_from_element_count element_counts with
    | .error e => .error e
    | .ok graph_nodes =>
      if use_element_symbols = false then
        match convert_graph_nodes_element_to_atomic_number graph_nodes with
        | .error e => .error e
        | .ok conv => .ok (conv.map (fun p => (p.1, NodeVal.num p.2)))
      else .ok (graph_nodes.map (fun p => (p.1, NodeVal.sym p.2)))

/-- Body of `tucan_string_to_graph_edges` once the edge section is in hand:
split on `)`, discard the trailing segment, strip each leading `(`, split on
`-` and parse the parts as integers. -/
def edgesOfSection (edge_section : Str) : Except Err (List (List Int)) :=
  let edges_with_opening_bracket := (pySplitChar edge_section ')').dropLast
  let edges := edges_with_opening_bracket.map (fun e => e.drop 1)
  mapE (fun edge => mapE pyInt (pySplitChar edge '-')) edges

/-- Model of `tucan_string_to_graph_edges` (`split("/")[1]` raises `IndexError`
when there is no second section). -/
def tucan_string_to_graph_edges (tucan_string : Str) : Except Err (List (List Int)) :=
  match (pySplitChar tucan_string '/').get? 1 with
  | none => .error .indexError
  | some edge_section => edgesOfSection edge_section

/-- Model of `tucan_string_to_graph`. -/
def tucan_string_to_graph (tucan_string : Str) :
    Except Err (List (Nat × NodeVal) × List (List Int)) :=
  match tucan_string_to_graph_nodes tucan_string true with
  | .error e => .error e
  | .ok nodes =>
    match tucan_string_to_graph_edges tucan_string with
    | .error e => .error e
    | .ok edges => .ok (nodes, edges)

/-- Helper used to describe `reSplitDigits` on concatenations: prefix the
first token of a (never produced empty) token list with `l`. -/
def prependHead (l : Str) : List Str → List Str
  | [] => [l]
  | t :: ts => (l ++ t) :: ts

/-- Well-formed element symbol per the spec's grammar: one uppercase letter
followed by lowercase letters. -/
def isSymbolB (s : Str) : Bool :=
  match s with
  | [] => false
  | c :: rest => isUp c && rest.all isLow

/-- A symbol/count pair of a sum formula: the symbol's characters and, for an
explicit count, its digit run (`none` encodes an implicit count of 1). -/
def pairCount (p : Str × Option Str) : Int :=
  match p.2 with
  | none => 1
  | some ds => Int.ofNat (digitsVal ds)

/-- Well-formedness of one symbol/count pair. -/
def wfPair (p : Str × Option Str) : Bool :=
  isSymbolB p.1 &&
    (match p.2 with
     | none => true
     | some ds => !ds.isEmpty && ds.all isDig)

/-- Well-formedness of a whole pair list. -/
def wfPairs (ps : List (Str × Option Str)) : Bool := ps.all wfPair

/-- The sum-formula string denoted by a pair list (symbols and explicit digit
runs concatenated in order). -/
def renderPairs (ps : List (Str × Option Str)) : Str :=
  ps.foldr (fun p acc => p.1 ++ p.2.getD [] ++ acc) []

/-- The token list `re.split("(\d+)", renderPairs ps)` produces, described
structurally: an explicit pair contributes its symbol token and digit token,
an implicit pair merges its symbol into the following token. -/
def tokensOf : List (Str × Option Str) → List Str
  | [] => [[]]
  | (s, some ds) :: rest => s :: ds :: tokensOf rest
  | (s, none) :: rest => prependHead s (tokensOf rest)

/-- The element-count dict a pair list denotes: later pairs with the same
symbol overwrite earlier ones (Python dict assignment). -/
def pyDictOf (ps : List (Str × Option Str)) : List (Str × Int) :=
  ps.foldl (fun d p => pyDictInsert d p.1 (pairCount p)) []

/-- The tail of the tokenizer run: fold the scanner over the popped token list
of `ps` starting from state `st`, then apply the final `isalpha` fix-up.  This
is exactly the body of `element_count_from_sum_formula` after the token list
has been identified. -/
def scanTail (st : Str × List (Str × Int)) (ps : List (Str × Option Str)) :
    Except Err (List (Str × Int)) :=
  match foldE processToken st (pyPop (tokensOf ps)) with
  | .error e => .error e
  | .ok st' =>
    if pyIsAlpha ((pyPop (tokensOf ps)).getLastD []) then .ok (pyDictInsert st'.2 st'.1 1)
    else .ok st'.2

/-- The decimal digit character for `n` (for `n ≤ 9`; everything above maps
to `9`, unreached in `natRenderAux`). -/
def digitOf (n : Nat) : Char :=
  match n with
  | 0 => '0'
  | 1 => '1'
  | 2 => '2'
  | 3 => '3'
  | 4 => '4'
  | 5 => '5'
  | 6 => '6'
  | 7 => '7'
  | 8 => '8'
  | _ => '9'

/-- Decimal rendering of a natural number (fuel-based so it reduces in the
kernel). -/
def natRenderAux : Nat → Nat → Str
  | 0, _ => []
  | f + 1, n =>
    if n < 10 then [digitOf n]
    else natRenderAux f (n / 10) ++ [digitOf (n % 10)]

/-- Decimal rendering of a natural number. -/
def natRender (n : Nat) : Str := natRenderAux (n + 1) n

/-- The edge section denoted by a list of node-id pairs: the concatenation of
the bracketed pairs `(a-b)` in order. -/
def renderEdges (ps : List (Nat × Nat)) : Str :=
  ps.foldr (fun p acc => '(' :: (natRender p.1 ++ '-' :: (natRender p.2 ++ ')' :: acc))) []

/-! Character-class facts. -/

theorem isUp_not_isDig {c : Char} (h : isUp c = true) : isDig c = false := by
  cases hb : isDig c with
  | false => rfl
  | true =>
    exfalso
    simp only [isUp, Bool.and_eq_true, decide_eq_true_eq] at h
    simp only [isDig, Bool.and_eq_true, decide_eq_true_eq] at hb
    omega

theorem isLow_not_isDig {c : Char} (h : isLow c = true) : isDig c = false := by
  cases hb : isDig c with
  | false => rfl
  | true =>
    exfalso
    simp only [isLow, Bool.and_eq_true, decide_eq_true_eq] at h
    simp only [isDig, Bool.and_eq_true, decide_eq_true_eq] at hb
    omega

theorem isUp_isAlph {c : Char} (h : isUp c = true) : isAlph c = true := by
  simp [isAlph, h]

theorem isLow_isAlph {c : Char} (h : isLow c = true) : isAlph c = true := by
  simp [isAlph, h]

theorem isDig_not_isAlph {c : Char} (h : isDig c = true) : isAlph c = false := by
  cases hb : isAlph c with
  | false => rfl
  | true =>
    exfalso
    simp only [isDig, Bool.and_eq_true, decide_eq_true_eq] at h
    simp only [isAlph, isUp, isLow, Bool.or_eq_true, Bool.and_eq_true, decide_eq_true_eq] at hb
    omega

theorem isDig_not_isWs {c : Char} (h : isDig c = true) : isWs c = false := by
  cases hb : isWs c with
  | false => rfl
  | true =>
    exfalso
    simp only [isDig, Bool.and_eq_true, decide_eq_true_eq] at h
    simp only [isWs, Bool.or_eq_true, decide_eq_true_eq] at hb
    omega

theorem isAlph_not_isDig {c : Char} (h : isAlph c = true) : isDig c = false := by
  cases hb : isDig c with
  | false => rfl
  | true =>
    exfalso
    simp only [isAlph, isUp, isLow, Bool.or_eq_true, Bool.and_eq_true, decide_eq_true_eq] at h
    simp only [isDig, Bool.and_eq_true, decide_eq_true_eq] at hb
    omega

theorem isDig_ne_underscore {c : Char} (h : isDig c = true) : c ≠ '_' := by
  intro e
  subst e
  exact absurd h (by decide)

theorem isDig_ne_plus {c : Char} (h : isDig c = true) : c ≠ '+' := by
  intro e
  subst e
  exact absurd h (by decide)

theorem isDig_ne_minus {c : Char} (h : isDig c = true) : c ≠ '-' := by
  intro e
  subst e
  exact absurd h (by decide)

theorem isDig_ne_rparen {c : Char} (h : isDig c = true) : c ≠ ')' := by
  intro e
  subst e
  exact absurd h (by decide)

theorem isUp_ne_rparen {c : Char} (h : isUp c = true) : c ≠ ')' := by
  intro e
  subst e
  exact absurd h (by decide)

/-! Python-dict lemmas. -/

theorem pyDictInsert_of_not_mem {α β : Type} [DecidableEq α] (m : List (α × β)) (k : α)
    (v : β) (h : k ∉ m.map Prod.fst) : pyDictInsert m k v = m ++ [(k, v)] := by
  unfold pyDictInsert
  rw [if_neg]
  simp only [List.any_eq_true, decide_eq_true_eq, not_exists]
  intro p hp
  rcases hp with ⟨hp, hk⟩
  exact h (List.mem_map.mpr ⟨p, hp, hk⟩)

theorem pyDictInsert_key_cases {α β : Type} [DecidableEq α] (m : List (α × β)) (k : α)
    (v : β) : ∀ p ∈ pyDictInsert m k v, p.1 = k ∨ p.1 ∈ m.map Prod.fst := by
  intro p hp
  unfold pyDictInsert at hp
  by_cases h : m.any (fun p => decide (p.1 = k)) = true
  · rw [if_pos h] at hp
    rcases List.mem_map.mp hp with ⟨q, hq, hpq⟩
    by_cases hk : q.1 = k
    · left
      rw [if_pos hk] at hpq
      rw [← hpq]
    · right
      rw [if_neg hk] at hpq
      rw [← hpq]
      exact List.mem_map.mpr ⟨q, hq, rfl⟩
  · rw [if_neg h] at hp
    rcases List.mem_append.mp hp with hp | hp
    · right
      exact List.mem_map.mpr ⟨p, hp, rfl⟩
    · left
      simp only [List.mem_singleton] at hp
      rw [hp]

theorem find?_map_replace {α β : Type} [DecidableEq α] (k : α) (v : β) :
    ∀ m : List (α × β), (∃ p ∈ m, p.1 = k) →
      (m.map (fun p => if p.1 = k then (k, v) else p)).find? (fun p => decide (p.1 = k)) =
        some (k, v) := by
  intro m
  induction m with
  | nil => rintro ⟨p, hp, _⟩; cases hp
  | cons q m ih =>
    intro hex
    by_cases hq : q.1 = k
    · simp only [List.map_cons, if_pos hq]
      rw [List.find?_cons_of_pos]
      simp
    · simp only [List.map_cons, if_neg hq]
      rw [List.find?_cons_of_neg _ (by simpa using hq)]
      apply ih
      rcases hex with ⟨p, hp, hpk⟩
      rcases List.mem_cons.mp hp with hpq | hp'
      · exact absurd (by rw [← hpq]; exact hpk) hq
      · exact ⟨p, hp', hpk⟩

theorem find?_append_key_new {α β : Type} [DecidableEq α] (k : α) (v : β) :
    ∀ m : List (α × β), (∀ p ∈ m, ¬ p.1 = k) →
      (m ++ [(k, v)]).find? (fun p => decide (p.1 = k)) = some (k, v) := by
  intro m
  induction m with
  | nil =>
    intro _
    simp only [List.nil_append]
    rw [List.find?_cons_of_pos]
    simp
  | cons q m ih =>
    intro hall
    simp only [List.cons_append]
    rw [List.find?_cons_of_neg _ (by simpa using hall q (List.mem_cons_self q m))]
    exact ih (fun p hp => hall p (List.mem_cons_of_mem q hp))

theorem pyDictGet?_insert_self {α β : Type} [DecidableEq α] (m : List (α × β)) (k : α)
    (v : β) : pyDictGet? (pyDictInsert m k v) k = some v := by
  unfold pyDictInsert pyDictGet?
  by_cases h : m.any (fun p => decide (p.1 = k)) = true
  · rw [if_pos h]
    rcases List.any_eq_true.mp h with ⟨p, hp, hpk⟩
    simp only [decide_eq_true_eq] at hpk
    rw [find?_map_replace k v m ⟨p, hp, hpk⟩]
    rfl
  · rw [if_neg h]
    have hnm : ∀ p ∈ m, ¬ p.1 = k := by
      intro p hp hpk
      exact h (List.any_eq_true.mpr ⟨p, hp, by simpa using hpk⟩)
    rw [find?_append_key_new k v m hnm]
    rfl

theorem find?_map_replace_ne {α β : Type} [DecidableEq α] (k k' : α) (v : β)
    (hne : k' ≠ k) : ∀ m : List (α × β),
      (m.map (fun p => if p.1 = k then (k, v) else p)).find? (fun p => decide (p.1 = k')) =
        m.find? (fun p => decide (p.1 = k')) := by
  intro m
  induction m with
  | nil => rfl
  | cons q m ih =>
    by_cases hq : q.1 = k
    · simp only [List.map_cons, if_pos hq]
      rw [List.find?_cons_of_neg _ (by simpa using Ne.symm hne),
        List.find?_cons_of_neg _ (by simp only [decide_eq_true_eq]; rw [hq]; exact Ne.symm hne)]
      exact ih
    · simp only [List.map_cons, if_neg hq]
      by_cases hq' : q.1 = k'
      · rw [List.find?_cons_of_pos _ (by simpa using hq'),
          List.find?_cons_of_pos _ (by simpa using hq')]
      · rw [List.find?_cons_of_neg _ (by simpa using hq'),
          List.find?_cons_of_neg _ (by simpa using hq')]
        exact ih

theorem pyDictGet?_insert_ne {α β : Type} [DecidableEq α] (m : List (α × β)) (k k' : α)
    (v : β) (hne : k' ≠ k) : pyDictGet? (pyDictInsert m k v) k' = pyDictGet? m k' := by
  unfold pyDictInsert pyDictGet?
  by_cases h : m.any (fun p => decide (p.1 = k)) = true
  · rw [if_pos h, find?_map_replace_ne k k' v hne m]
  · rw [if_neg h]
    induction m with
    | nil =>
      simp only [List.nil_append]
      rw [List.find?_cons_of_neg _ (by simpa using Ne.symm hne)]
    | cons q m ih =>
      simp only [List.cons_append]
      by_cases hq' : q.1 = k'
      · rw [List.find?_cons_of_pos _ (by simpa using hq'),
          List.find?_cons_of_pos _ (by simpa using hq')]
      · rw [List.find?_cons_of_neg _ (by simpa using hq'),
          List.find?_cons_of_neg _ (by simpa using hq')]
        exact ih (by
          intro hc
          exact h (by
            rcases List.any_eq_true.mp hc with ⟨p, hp, hpk⟩
            exact List.any_eq_true.mpr ⟨p, List.mem_cons_of_mem q hp, hpk⟩))

theorem foldl_pyDictInsert_nodup {α β : Type} [DecidableEq α] :
    ∀ (l acc : List (α × β)), (((acc ++ l).map Prod.fst).Nodup) →
      l.foldl (fun m q => pyDictInsert m q.1 q.2) acc = acc ++ l := by
  intro l
  induction l with
  | nil => intro acc _; simp
  | cons q l ih =>
    intro acc hnd
    have hq : q.1 ∉ acc.map Prod.fst := by
      intro hmem
      rw [List.map_append] at hnd
      rcases List.mem_map.mp hmem with ⟨p, hp, hpk⟩
      have := (List.nodup_append.mp hnd).2.2
      exact this hmem (by simp)
    simp only [List.foldl_cons]
    rw [pyDictInsert_of_not_mem acc q.1 q.2 hq]
    have : acc ++ q :: l = (acc ++ [(q.1, q.2)]) ++ l := by simp
    rw [this]
    apply ih
    rw [← this]
    exact hnd

/-! Stable-sort lemmas. -/

theorem sInsert_perm {α : Type} (le : α → α → Bool) (x : α) :
    ∀ l, (sInsert le x l).Perm (x :: l) := by
  intro l
  induction l with
  | nil => exact List.Perm.refl _
  | cons y ys ih =>
    unfold sInsert
    by_cases h : le x y = true
    · rw [if_pos h]
    · rw [if_neg h]
      exact List.Perm.trans (List.Perm.cons y ih) (List.Perm.swap x y ys)

theorem insertionSortBy_perm {α : Type} (le : α → α → Bool) :
    ∀ l, (insertionSortBy le l).Perm l := by
  intro l
  induction l with
  | nil => exact List.Perm.refl _
  | cons x xs ih =>
    unfold insertionSortBy
    exact List.Perm.trans (sInsert_perm le x (insertionSortBy le xs)) (List.Perm.cons x ih)

theorem sInsert_pairwise {α : Type} (le : α → α → Bool)
    (htot : ∀ a b, le a b = true ∨ le b a = true)
    (htrans : ∀ a b c, le a b = true → le b c = true → le a c = true) (x : α) :
    ∀ l, List.Pairwise (fun a b => le a b = true) l →
      List.Pairwise (fun a b => le a b = true) (sInsert le x l) := by
  intro l
  induction l with
  | nil => intro _; simp [sInsert]
  | cons y ys ih =>
    intro h
    rcases List.pairwise_cons.mp h with ⟨hy, hys⟩
    unfold sInsert
    by_cases hxy : le x y = true
    · rw [if_pos hxy]
      refine List.pairwise_cons.mpr ⟨?_, h⟩
      intro z hz
      rcases List.mem_cons.mp hz with hz | hz
      · rw [hz]; exact hxy
      · exact htrans x y z hxy (hy z hz)
    · rw [if_neg hxy]
      refine List.pairwise_cons.mpr ⟨?_, ih hys⟩
      intro z hz
      have hz' : z ∈ x :: ys := (sInsert_perm le x ys).mem_iff.mp hz
      rcases List.mem_cons.mp hz' with hz' | hz'
      · rw [hz']
        rcases htot x y with h' | h'
        · exact absurd h' hxy
        · exact h'
      · exact hy z hz'

theorem insertionSortBy_pairwise {α : Type} (le : α → α → Bool)
    (htot : ∀ a b, le a b = true ∨ le b a = true)
    (htrans : ∀ a b c, le a b = true → le b c = true → le a c = true) :
    ∀ l, List.Pairwise (fun a b => le a b = true) (insertionSortBy le l) := by
  intro l
  induction l with
  | nil => simp [insertionSortBy]
  | cons x xs ih => exact sInsert_pairwise le htot htrans x _ ih

theorem pairTupleLe_total (a b : Nat × Int) : pairTupleLe a b = true ∨ pairTupleLe b a = true := by
  simp only [pairTupleLe, Bool.or_eq_true, Bool.and_eq_true, decide_eq_true_eq]
  omega

theorem pairTupleLe_trans (a b c : Nat × Int) (h1 : pairTupleLe a b = true)
    (h2 : pairTupleLe b c = true) : pairTupleLe a c = true := by
  simp only [pairTupleLe, Bool.or_eq_true, Bool.and_eq_true, decide_eq_true_eq] at h1 h2 ⊢
  omega

theorem pairTupleLe_antisymm (a b : Nat × Int) (h1 : pairTupleLe a b = true)
    (h2 : pairTupleLe b a = true) : a = b := by
  simp only [pairTupleLe, Bool.or_eq_true, Bool.and_eq_true, decide_eq_true_eq] at h1 h2
  rw [Prod.ext_iff]
  omega

/-! Lemmas about the `re.split("(\d+)", s)` state machine. -/

theorem reSplitAux_false_nil (acc : Str) : reSplitAux false acc [] = [acc.reverse] := rfl

theorem reSplitAux_true_nil (acc : Str) : reSplitAux true acc [] = [acc.reverse, []] := rfl

theorem reSplitAux_false_cons (acc : Str) (c : Char) (cs : Str) :
    reSplitAux false acc (c :: cs) =
      if isDig c = true then acc.reverse :: reSplitAux true [c] cs
      else reSplitAux false (c :: acc) cs := rfl

theorem reSplitAux_true_cons (acc : Str) (c : Char) (cs : Str) :
    reSplitAux true acc (c :: cs) =
      if isDig c = true then reSplitAux true (c :: acc) cs
      else acc.reverse :: reSplitAux false [c] cs := rfl

theorem reSplitAux_ne_nil : ∀ (cs : Str) (mode : Bool) (acc : Str), reSplitAux mode acc cs ≠ [] := by
  intro cs
  induction cs with
  | nil => intro mode acc; cases mode <;> simp [reSplitAux]
  | cons c cs ih =>
    intro mode acc
    cases mode
    · rw [reSplitAux_false_cons]
      by_cases h : isDig c = true
      · rw [if_pos h]; simp
      · rw [if_neg h]; exact ih false (c :: acc)
    · rw [reSplitAux_true_cons]
      by_cases h : isDig c = true
      · rw [if_pos h]; exact ih true (c :: acc)
      · rw [if_neg h]; simp

theorem reSplitAux_nondigit_run : ∀ (L : Str) (acc cs : Str), (∀ c ∈ L, isDig c = false) →
    reSplitAux false acc (L ++ cs) = reSplitAux false (L.reverse ++ acc) cs := by
  intro L
  induction L with
  | nil => intro acc cs _; simp
  | cons c L ih =>
    intro acc cs h
    have hc : isDig c = false := h c (List.mem_cons_self c L)
    simp only [List.cons_append]
    rw [reSplitAux_false_cons, if_neg (by simp [hc])]
    rw [ih (c :: acc) cs (fun c' hc' => h c' (List.mem_cons_of_mem c hc'))]
    simp [List.append_assoc]

theorem reSplitAux_digit_run : ∀ (D : Str) (acc cs : Str), (∀ c ∈ D, isDig c = true) →
    reSplitAux true acc (D ++ cs) = reSplitAux true (D.reverse ++ acc) cs := by
  intro D
  induction D with
  | nil => intro acc cs _; simp
  | cons c D ih =>
    intro acc cs h
    have hc : isDig c = true := h c (List.mem_cons_self c D)
    simp only [List.cons_append]
    rw [reSplitAux_true_cons, if_pos hc]
    rw [ih (c :: acc) cs (fun c' hc' => h c' (List.mem_cons_of_mem c hc'))]
    simp [List.append_assoc]

theorem reSplitAux_true_stop : ∀ (acc cs : Str),
    (cs = [] ∨ ∃ c cs', cs = c :: cs' ∧ isDig c = false) →
    reSplitAux true acc cs = acc.reverse :: reSplitAux false [] cs := by
  intro acc cs h
  rcases h with h | ⟨c, cs', h, hc⟩
  · subst h; simp [reSplitAux]
  · subst h
    rw [reSplitAux_true_cons, if_neg (by simp [hc]), reSplitAux_false_cons,
      if_neg (by simp [hc])]

theorem prependHead_prependHead (a b : Str) (l : List Str) :
    prependHead a (prependHead b l) = prependHead (a ++ b) l := by
  cases l <;> simp [prependHead]

theorem reSplitAux_false_acc : ∀ (cs acc : Str),
    reSplitAux false acc cs = prependHead acc.reverse (reSplitAux false [] cs) := by
  intro cs
  induction cs with
  | nil => intro acc; simp [reSplitAux, prependHead]
  | cons c cs ih =>
    intro acc
    by_cases h : isDig c = true
    · rw [reSplitAux_false_cons, if_pos h, reSplitAux_false_cons, if_pos h]
      simp [prependHead]
    · rw [reSplitAux_false_cons, if_neg (by simp [h]), reSplitAux_false_cons,
        if_neg (by simp [h])]
      rw [ih (c :: acc), ih [c], prependHead_prependHead]
      simp

theorem reSplitAux_false_head : ∀ (cs acc : Str), ∃ tl,
    reSplitAux false acc cs = (acc.reverse ++ cs.takeWhile (fun c => !isDig c)) :: tl ∧
      ((∃ c ∈ cs, isDig c = true) → tl ≠ []) := by
  intro cs
  induction cs with
  | nil =>
    intro acc
    exact ⟨[], by simp [reSplitAux], by rintro ⟨c, hc, _⟩; cases hc⟩
  | cons c cs ih =>
    intro acc
    by_cases h : isDig c = true
    · refine ⟨reSplitAux true [c] cs, ?_, fun _ => reSplitAux_ne_nil cs true [c]⟩
      rw [reSplitAux_false_cons, if_pos h]
      simp [List.takeWhile_cons, h]
    · rcases ih (c :: acc) with ⟨tl, htl, hne⟩
      refine ⟨tl, ?_, ?_⟩
      · rw [reSplitAux_false_cons, if_neg (by simp [h]), htl]
        simp [List.takeWhile_cons, h, List.append_assoc]
      · rintro ⟨c', hc', hd⟩
        rcases List.mem_cons.mp hc' with rfl | hc'
        · rw [hd] at h; exact absurd rfl h
        · exact hne ⟨c', hc', hd⟩

/-! Lemmas about the `re.findall('[A-Z][^A-Z]*', s)` state machine. -/

theorem isLow_not_isUp {c : Char} (h : isLow c = true) : isUp c = false := by
  cases hb : isUp c with
  | false => rfl
  | true =>
    exfalso
    simp only [isLow, Bool.and_eq_true, decide_eq_true_eq] at h
    simp only [isUp, Bool.and_eq_true, decide_eq_true_eq] at hb
    omega

theorem getLastD_irrel {α : Type} : ∀ (l : List α) (d1 d2 : α), l ≠ [] →
    l.getLastD d1 = l.getLastD d2 := by
  intro l d1 d2 h
  cases l with
  | nil => exact absurd rfl h
  | cons x l => simp [List.getLastD]

theorem getLastD_mem {α : Type} : ∀ (l : List α) (d : α), l ≠ [] → l.getLastD d ∈ l := by
  intro l
  induction l with
  | nil => intro d h; exact absurd rfl h
  | cons x l ih =>
    intro d _
    cases l with
    | nil => simp [List.getLastD]
    | cons y t =>
      have := ih d (by simp)
      simp only [List.getLastD] at this ⊢
      exact List.mem_cons_of_mem x this

theorem findCapsAux_none_cons (c : Char) (cs : Str) :
    findCapsAux none (c :: cs) =
      if isUp c = true then findCapsAux (some [c]) cs else findCapsAux none cs := rfl

theorem findCapsAux_some_nil (acc : Str) : findCapsAux (some acc) [] = [acc.reverse] := rfl

theorem findCapsAux_some_cons (acc : Str) (c : Char) (cs : Str) :
    findCapsAux (some acc) (c :: cs) =
      if isUp c = true then acc.reverse :: findCapsAux (some [c]) cs
      else findCapsAux (some (c :: acc)) cs := rfl

theorem findCapsAux_none_skip : ∀ (L : Str) (cs : Str), (∀ c ∈ L, isUp c = false) →
    findCapsAux none (L ++ cs) = findCapsAux none cs := by
  intro L
  induction L with
  | nil => intro cs _; rfl
  | cons c L ih =>
    intro cs h
    simp only [List.cons_append]
    rw [findCapsAux_none_cons, if_neg (by simp [h c (List.mem_cons_self c L)])]
    exact ih cs (fun c' hc' => h c' (List.mem_cons_of_mem c hc'))

theorem findCapsAux_some_nonupper : ∀ (L : Str) (acc cs : Str), (∀ c ∈ L, isUp c = false) →
    findCapsAux (some acc) (L ++ cs) = findCapsAux (some (L.reverse ++ acc)) cs := by
  intro L
  induction L with
  | nil => intro acc cs _; simp
  | cons c L ih =>
    intro acc cs h
    simp only [List.cons_append]
    rw [findCapsAux_some_cons, if_neg (by simp [h c (List.mem_cons_self c L)])]
    rw [ih (c :: acc) cs (fun c' hc' => h c' (List.mem_cons_of_mem c hc'))]
    simp [List.append_assoc]

theorem findCapsAux_some_stop : ∀ (acc cs : Str),
    (cs = [] ∨ ∃ c cs', cs = c :: cs' ∧ isUp c = true) →
    findCapsAux (some acc) cs = acc.reverse :: findCapsAux none cs := by
  intro acc cs h
  rcases h with h | ⟨c, cs', h, hc⟩
  · subst h; rfl
  · subst h
    rw [findCapsAux_some_cons, if_pos hc, findCapsAux_none_cons, if_pos hc]

theorem findallCaps_symbol {s : Str} (hs : isSymbolB s = true) : findallCaps s = [s] := by
  cases s with
  | nil => simp [isSymbolB] at hs
  | cons c rest =>
    simp only [isSymbolB, Bool.and_eq_true, List.all_eq_true] at hs
    unfold findallCaps
    rw [findCapsAux_none_cons, if_pos hs.1]
    have hrw := findCapsAux_some_nonupper rest [c] []
      (fun c' hc' => isLow_not_isUp (hs.2 c' hc'))
    rw [List.append_nil] at hrw
    rw [hrw]
    simp [findCapsAux_some_nil, List.reverse_append]

theorem findallCaps_none_of_nonupper {t : Str} (h : ∀ c ∈ t, isUp c = false) :
    findallCaps t = [] := by
  unfold findallCaps
  rw [show t = t ++ [] by simp]
  rw [findCapsAux_none_skip t [] (by simpa using h)]
  rfl

theorem findallCaps_symbol_append {s : Str} (t : Str) (hs : isSymbolB s = true)
    (ht : t = [] ∨ ∃ c t', t = c :: t' ∧ isUp c = true) :
    findallCaps (s ++ t) = s :: findallCaps t := by
  cases s with
  | nil => simp [isSymbolB] at hs
  | cons c rest =>
    simp only [isSymbolB, Bool.and_eq_true, List.all_eq_true] at hs
    unfold findallCaps
    simp only [List.cons_append]
    rw [findCapsAux_none_cons, if_pos hs.1]
    rw [findCapsAux_some_nonupper rest [c] t (fun c' hc' => isLow_not_isUp (hs.2 c' hc'))]
    rw [findCapsAux_some_stop _ t ht]
    simp [List.reverse_append]

theorem findCapsAux_mem_shape : ∀ (cs : Str) (st : Option Str),
    (st = none ∨ ∃ u mid, st = some (mid ++ [u]) ∧ isUp u = true) →
    ∀ r ∈ findCapsAux st cs, ∃ u rest, r = u :: rest ∧ isUp u = true := by
  intro cs
  induction cs with
  | nil =>
    intro st hst r hr
    rcases hst with rfl | ⟨u, mid, rfl, hu⟩
    · cases hr
    · rw [findCapsAux_some_nil] at hr
      simp only [List.mem_singleton] at hr
      exact ⟨u, mid.reverse, by simp [hr, List.reverse_append], hu⟩
  | cons c cs ih =>
    intro st hst r hr
    rcases hst with rfl | ⟨u, mid, rfl, hu⟩
    · rw [findCapsAux_none_cons] at hr
      by_cases hc : isUp c = true
      · rw [if_pos hc] at hr
        exact ih (some [c]) (Or.inr ⟨c, [], by simp, hc⟩) r hr
      · rw [if_neg hc] at hr
        exact ih none (Or.inl rfl) r hr
    · rw [findCapsAux_some_cons] at hr
      by_cases hc : isUp c = true
      · rw [if_pos hc] at hr
        rcases List.mem_cons.mp hr with hr | hr
        · exact ⟨u, mid.reverse, by simp [hr, List.reverse_append], hu⟩
        · exact ih (some [c]) (Or.inr ⟨c, [], by simp, hc⟩) r hr
      · rw [if_neg hc] at hr
        exact ih (some (c :: (mid ++ [u]))) (Or.inr ⟨u, c :: mid, by simp, hu⟩) r hr

theorem findallCaps_mem_shape {t r : Str} (hr : r ∈ findallCaps t) :
    ∃ u rest, r = u :: rest ∧ isUp u = true :=
  findCapsAux_mem_shape t none (Or.inl rfl) r hr

/-! Lemmas about the `int()` model. -/

theorem dropWhile_all_false {α : Type} (p : α → Bool) : ∀ l : List α,
    (∀ c ∈ l, p c = false) → l.dropWhile p = l := by
  intro l h
  cases l with
  | nil => rfl
  | cons c cs =>
    rw [List.dropWhile_cons, if_neg]
    simp [h c (List.mem_cons_self c cs)]

theorem pyStrip_id {cs : Str} (h : ∀ c ∈ cs, isWs c = false) : pyStrip cs = cs := by
  unfold pyStrip
  rw [dropWhile_all_false isWs cs h]
  rw [dropWhile_all_false isWs cs.reverse (fun c hc => h c (List.mem_reverse.mp hc))]
  simp

theorem mem_pyStrip {cs : Str} {c : Char} (h : c ∈ pyStrip cs) : c ∈ cs := by
  unfold pyStrip at h
  rw [List.mem_reverse] at h
  have h1 := (List.dropWhile_sublist (l := (cs.dropWhile isWs).reverse) isWs).mem h
  rw [List.mem_reverse] at h1
  exact (List.dropWhile_sublist isWs).mem h1

theorem undOk_digits {ds : Str} (hne : ds ≠ []) (h : ∀ c ∈ ds, isDig c = true) :
    undOk ds = true := by
  cases ds with
  | nil => exact absurd rfl hne
  | cons d rest =>
    have hall : (d :: rest).all (fun c => isDig c || decide (c = '_')) = true := by
      rw [List.all_eq_true]
      intro x hx
      simp [h x hx]
    have hhead : isDig ((d :: rest).headD '_') = true := by
      simpa using h d (List.mem_cons_self d rest)
    have hlast : isDig ((d :: rest).getLastD '_') = true :=
      h _ (getLastD_mem _ '_' (List.cons_ne_nil d rest))
    simp [undOk, hall]
    refine ⟨⟨h d (List.mem_cons_self d rest), ?_⟩, ?_⟩
    · rw [← List.getLastD_eq_getLast?]
      exact hlast
    · intro a b hab
      exact Or.inl (isDig_ne_underscore (h a (List.of_mem_zip hab).1))

theorem undOk_no_digit {x : Str} (h : ∀ c ∈ x, isDig c = false) : undOk x = false := by
  cases x with
  | nil => rfl
  | cons c rest =>
    have hc : isDig c = false := h c (List.mem_cons_self c rest)
    simp [undOk, hc]

theorem pyInt_digits {ds : Str} (hne : ds ≠ []) (h : ∀ c ∈ ds, isDig c = true) :
    pyInt ds = .ok (Int.ofNat (digitsVal ds)) := by
  have hs : pyStrip ds = ds := pyStrip_id (fun c hc => isDig_not_isWs (h c hc))
  unfold pyInt
  rw [hs]
  cases ds with
  | nil => exact absurd rfl hne
  | cons d rest =>
    have hd : isDig d = true := h d (List.mem_cons_self d rest)
    unfold pyIntCore
    rw [if_neg (by simpa using isDig_ne_plus hd), if_neg (by simpa using isDig_ne_minus hd),
      if_pos (undOk_digits hne h)]
    unfold pyIntVal
    rw [List.filter_eq_self.mpr (fun c hc => by simp [isDig_ne_underscore (h c hc)])]

theorem pyInt_no_digit {cs : Str} (h : ∀ c ∈ cs, isDig c = false) :
    pyInt cs = .error (.intParse cs) := by
  have hsub : ∀ c ∈ pyStrip cs, isDig c = false := fun c hc => h c (mem_pyStrip hc)
  unfold pyInt pyIntCore
  by_cases h1 : (pyStrip cs).headD ' ' = '+'
  · rw [if_pos h1, if_neg]
    simp only [Bool.not_eq_true]
    exact undOk_no_digit (fun c hc => hsub c (List.mem_of_mem_tail hc))
  · rw [if_neg h1]
    by_cases h2 : (pyStrip cs).headD ' ' = '-'
    · rw [if_pos h2, if_neg]
      simp only [Bool.not_eq_true]
      exact undOk_no_digit (fun c hc => hsub c (List.mem_of_mem_tail hc))
    · rw [if_neg h2, if_neg]
      simp only [Bool.not_eq_true]
      exact undOk_no_digit hsub

theorem pyInt_error_shape {cs : Str} {e : Err} (h : pyInt cs = .error e) :
    e = .intParse cs := by
  unfold pyInt pyIntCore at h
  split at h
  · split at h
    · exact absurd h (by simp)
    · simp only [Except.error.injEq] at h
      exact h.symm
  · split at h
    · split at h
      · exact absurd h (by simp)
      · simp only [Except.error.injEq] at h
        exact h.symm
    · split at h
      · exact absurd h (by simp)
      · simp only [Except.error.injEq] at h
        exact h.symm

/-! Lemmas about the single-character split. -/

theorem pySplitAux_nil (sep : Char) (acc : Str) : pySplitAux sep acc [] = [acc.reverse] := rfl

theorem pySplitAux_cons (sep : Char) (acc : Str) (c : Char) (cs : Str) :
    pySplitAux sep acc (c :: cs) =
      if c = sep then acc.reverse :: pySplitAux sep [] cs
      else pySplitAux sep (c :: acc) cs := rfl

theorem pySplitAux_ne_nil : ∀ (cs : Str) (sep : Char) (acc : Str), pySplitAux sep acc cs ≠ [] := by
  intro cs
  induction cs with
  | nil => intro sep acc; simp [pySplitAux_nil]
  | cons c cs ih =>
    intro sep acc
    rw [pySplitAux_cons]
    by_cases h : c = sep
    · rw [if_pos h]; simp
    · rw [if_neg h]; exact ih sep (c :: acc)

theorem pySplitAux_no_sep : ∀ (cs : Str) (sep : Char) (acc : Str), (∀ c ∈ cs, c ≠ sep) →
    pySplitAux sep acc cs = [acc.reverse ++ cs] := by
  intro cs
  induction cs with
  | nil => intro sep acc _; simp [pySplitAux_nil]
  | cons c cs ih =>
    intro sep acc h
    rw [pySplitAux_cons, if_neg (h c (List.mem_cons_self c cs))]
    rw [ih sep (c :: acc) (fun c' hc' => h c' (List.mem_cons_of_mem c hc'))]
    simp

theorem pySplitAux_seg : ∀ (a : Str) (sep : Char) (rest acc : Str), (∀ c ∈ a, c ≠ sep) →
    pySplitAux sep acc (a ++ sep :: rest) = (acc.reverse ++ a) :: pySplitAux sep [] rest := by
  intro a
  induction a with
  | nil =>
    intro sep rest acc _
    simp only [List.nil_append]
    rw [pySplitAux_cons, if_pos rfl]
    simp
  | cons c a ih =>
    intro sep rest acc h
    simp only [List.cons_append]
    rw [pySplitAux_cons, if_neg (h c (List.mem_cons_self c a))]
    rw [ih sep rest (c :: acc) (fun c' hc' => h c' (List.mem_cons_of_mem c hc'))]
    simp

theorem dropLast_cons_ne {α : Type} (x : α) {l : List α} (h : l ≠ []) :
    (x :: l).dropLast = x :: l.dropLast := by
  cases l with
  | nil => exact absurd rfl h
  | cons y t => rfl

theorem getLastD_cons_ne {α : Type} (x : α) {l : List α} (d : α) (h : l ≠ []) :
    (x :: l).getLastD d = l.getLastD d := by
  rw [List.getLastD_cons]
  exact getLastD_irrel l x d h

theorem pySplitAux_append_no_sep : ∀ (cs j : Str) (sep : Char) (acc : Str),
    (∀ c ∈ j, c ≠ sep) →
    pySplitAux sep acc (cs ++ j) =
      (pySplitAux sep acc cs).dropLast ++ [(pySplitAux sep acc cs).getLastD [] ++ j] := by
  intro cs
  induction cs with
  | nil =>
    intro j sep acc h
    simp only [List.nil_append]
    rw [pySplitAux_no_sep j sep acc h, pySplitAux_nil]
    simp [List.getLastD]
  | cons c cs ih =>
    intro j sep acc h
    simp only [List.cons_append]
    by_cases hc : c = sep
    · rw [pySplitAux_cons, if_pos hc, pySplitAux_cons, if_pos hc]
      rw [ih j sep [] h]
      have hne : pySplitAux sep ([] : Str) cs ≠ [] := pySplitAux_ne_nil cs sep []
      rw [dropLast_cons_ne _ hne, getLastD_cons_ne _ _ hne]
      simp
    · rw [pySplitAux_cons, if_neg hc, pySplitAux_cons, if_neg hc]
      exact ih j sep (c :: acc) h

/-! Well-formed formulas: symbols, pairs, and their token structure. -/

theorem isDig_not_isUp {c : Char} (h : isDig c = true) : isUp c = false := by
  cases hb : isUp c with
  | false => rfl
  | true =>
    exfalso
    simp only [isDig, Bool.and_eq_true, decide_eq_true_eq] at h
    simp only [isUp, Bool.and_eq_true, decide_eq_true_eq] at hb
    omega

theorem symbol_ne_nil {s : Str} (hs : isSymbolB s = true) : s ≠ [] := by
  cases s with
  | nil => simp [isSymbolB] at hs
  | cons c rest => simp

theorem symbol_no_digit {s : Str} (hs : isSymbolB s = true) : ∀ c ∈ s, isDig c = false := by
  cases s with
  | nil => simp [isSymbolB] at hs
  | cons c rest =>
    simp only [isSymbolB, Bool.and_eq_true, List.all_eq_true] at hs
    intro x hx
    rcases List.mem_cons.mp hx with rfl | hx
    · exact isUp_not_isDig hs.1
    · exact isLow_not_isDig (hs.2 x hx)

theorem symbol_all_alpha {s : Str} (hs : isSymbolB s = true) : ∀ c ∈ s, isAlph c = true := by
  cases s with
  | nil => simp [isSymbolB] at hs
  | cons c rest =>
    simp only [isSymbolB, Bool.and_eq_true, List.all_eq_true] at hs
    intro x hx
    rcases List.mem_cons.mp hx with rfl | hx
    · exact isUp_isAlph hs.1
    · exact isLow_isAlph (hs.2 x hx)

theorem symbol_head_upper {s : Str} (hs : isSymbolB s = true) :
    ∃ u rest, s = u :: rest ∧ isUp u = true := by
  cases s with
  | nil => simp [isSymbolB] at hs
  | cons c rest =>
    simp only [isSymbolB, Bool.and_eq_true, List.all_eq_true] at hs
    exact ⟨c, rest, rfl, hs.1⟩

theorem wfPairs_cons {p : Str × Option Str} {ps : List (Str × Option Str)}
    (h : wfPairs (p :: ps) = true) : wfPair p = true ∧ wfPairs ps = true := by
  simpa [wfPairs] using h

theorem wfPair_symbol {p : Str × Option Str} (h : wfPair p = true) : isSymbolB p.1 = true := by
  simp only [wfPair, Bool.and_eq_true] at h
  exact h.1

theorem wfPair_digits {s ds : Str} (h : wfPair (s, some ds) = true) :
    ds ≠ [] ∧ ∀ c ∈ ds, isDig c = true := by
  simp only [wfPair, Bool.and_eq_true, List.all_eq_true] at h
  refine ⟨?_, h.2.2⟩
  intro e
  subst e
  simp at h

theorem renderPairs_nil : renderPairs [] = [] := rfl

theorem renderPairs_cons (s : Str) (oc : Option Str) (rest : List (Str × Option Str)) :
    renderPairs ((s, oc) :: rest) = s ++ (oc.getD [] ++ renderPairs rest) := by
  simp [renderPairs, List.append_assoc]

theorem renderPairs_shape {ps : List (Str × Option Str)} (h : wfPairs ps = true) :
    renderPairs ps = [] ∨ ∃ u t', renderPairs ps = u :: t' ∧ isUp u = true := by
  cases ps with
  | nil => exact Or.inl rfl
  | cons p rest =>
    rcases p with ⟨s, oc⟩
    rcases wfPairs_cons h with ⟨hp, _⟩
    rcases symbol_head_upper (wfPair_symbol hp) with ⟨u, srest, hsu, hu⟩
    have hsu' : s = u :: srest := hsu
    right
    refine ⟨u, srest ++ (oc.getD [] ++ renderPairs rest), ?_, hu⟩
    rw [renderPairs_cons, hsu']
    simp

theorem tokensOf_nil : tokensOf [] = [[]] := rfl

theorem tokensOf_explicit (s ds : Str) (rest : List (Str × Option Str)) :
    tokensOf ((s, some ds) :: rest) = s :: ds :: tokensOf rest := rfl

theorem tokensOf_implicit (s : Str) (rest : List (Str × Option Str)) :
    tokensOf ((s, none) :: rest) = prependHead s (tokensOf rest) := rfl

theorem reSplitDigits_render : ∀ ps, wfPairs ps = true →
    reSplitDigits (renderPairs ps) = tokensOf ps := by
  intro ps
  induction ps with
  | nil => intro _; rfl
  | cons p rest ih =>
    intro h
    rcases p with ⟨s, oc⟩
    rcases wfPairs_cons h with ⟨hp, hrest⟩
    have hs : isSymbolB s = true := wfPair_symbol hp
    have hrshape : renderPairs rest = [] ∨
        ∃ c cs', renderPairs rest = c :: cs' ∧ isDig c = false := by
      rcases renderPairs_shape hrest with h' | ⟨u, t', h', hu⟩
      · exact Or.inl h'
      · exact Or.inr ⟨u, t', h', isUp_not_isDig hu⟩
    cases oc with
    | none =>
      rw [renderPairs_cons]
      simp only [Option.getD_none, List.nil_append]
      unfold reSplitDigits
      rw [reSplitAux_nondigit_run s [] (renderPairs rest) (symbol_no_digit hs)]
      rw [List.append_nil, reSplitAux_false_acc]
      rw [List.reverse_reverse]
      rw [tokensOf_implicit]
      unfold reSplitDigits at ih
      rw [ih hrest]
    | some ds =>
      rcases wfPair_digits hp with ⟨hdne, hdig⟩
      rw [renderPairs_cons]
      simp only [Option.getD_some]
      unfold reSplitDigits
      rw [reSplitAux_nondigit_run s [] _ (symbol_no_digit hs), List.append_nil]
      cases ds with
      | nil => exact absurd rfl hdne
      | cons d ds' =>
        simp only [List.cons_append]
        rw [reSplitAux_false_cons, if_pos (hdig d (List.mem_cons_self d ds'))]
        rw [List.reverse_reverse]
        rw [reSplitAux_digit_run ds' [d] _
          (fun c hc => hdig c (List.mem_cons_of_mem d hc))]
        rw [reSplitAux_true_stop _ _ hrshape]
        rw [tokensOf_explicit]
        unfold reSplitDigits at ih
        rw [ih hrest]
        simp [List.reverse_append]

theorem tokensOf_ne_nil : ∀ ps, tokensOf ps ≠ [] := by
  intro ps
  cases ps with
  | nil => simp [tokensOf_nil]
  | cons p rest =>
    rcases p with ⟨s, oc⟩
    cases oc with
    | none =>
      rw [tokensOf_implicit]
      cases tokensOf rest <;> simp [prependHead]
    | some ds => simp [tokensOf_explicit]

theorem tokensOf_head_shape : ∀ ps, ps ≠ [] → wfPairs ps = true →
    ∃ u t0 ts, tokensOf ps = (u :: t0) :: ts ∧ isUp u = true := by
  intro ps hne h
  cases ps with
  | nil => exact absurd rfl hne
  | cons p rest =>
    rcases p with ⟨s, oc⟩
    rcases wfPairs_cons h with ⟨hp, _⟩
    rcases symbol_head_upper (wfPair_symbol hp) with ⟨u, srest, hsu, hu⟩
    have hsu' : s = u :: srest := hsu
    cases oc with
    | none =>
      rw [tokensOf_implicit]
      cases htr : tokensOf rest with
      | nil => exact absurd htr (tokensOf_ne_nil rest)
      | cons t0 ts =>
        refine ⟨u, srest ++ t0, ts, ?_, hu⟩
        simp [prependHead, hsu']
    | some ds =>
      rw [tokensOf_explicit]
      exact ⟨u, srest, ds :: tokensOf rest, by rw [hsu'], hu⟩

theorem tokensOf_length_odd : ∀ ps, (tokensOf ps).length % 2 = 1 := by
  intro ps
  induction ps with
  | nil => rfl
  | cons p rest ih =>
    rcases p with ⟨s, oc⟩
    cases oc with
    | none =>
      rw [tokensOf_implicit]
      cases htr : tokensOf rest with
      | nil => exact absurd htr (tokensOf_ne_nil rest)
      | cons t0 ts =>
        rw [htr] at ih
        simpa [prependHead] using ih
    | some ds =>
      rw [tokensOf_explicit]
      simp only [List.length_cons]
      omega

theorem tokensOf_singleton_alpha : ∀ ps, wfPairs ps = true → ∀ t, tokensOf ps = [t] →
    ∀ c ∈ t, isAlph c = true := by
  intro ps
  induction ps with
  | nil =>
    intro _ t ht
    rw [tokensOf_nil] at ht
    simp only [List.cons.injEq] at ht
    rw [← ht.1]
    intro c hc
    cases hc
  | cons p rest ih =>
    intro h t ht
    rcases p with ⟨s, oc⟩
    rcases wfPairs_cons h with ⟨hp, hrest⟩
    cases oc with
    | some ds =>
      rw [tokensOf_explicit] at ht
      simp at ht
    | none =>
      rw [tokensOf_implicit] at ht
      cases htr : tokensOf rest with
      | nil => exact absurd htr (tokensOf_ne_nil rest)
      | cons t0 ts =>
        rw [htr] at ht
        simp only [prependHead, List.cons.injEq] at ht
        intro c hc
        rw [← ht.1] at hc
        rcases List.mem_append.mp hc with hc | hc
        · exact symbol_all_alpha (wfPair_symbol hp) c hc
        · have hts : ts = [] := ht.2
          subst hts
          exact ih hrest t0 htr c hc

/-! Scanner-step lemmas. -/

theorem foldE_nil {α β : Type} (f : β → α → Except Err β) (b : β) : foldE f b [] = .ok b := rfl

theorem foldE_cons {α β : Type} (f : β → α → Except Err β) (b : β) (a : α) (as : List α) :
    foldE f b (a :: as) =
      match f b a with
      | .error e => .error e
      | .ok b' => foldE f b' as := rfl

theorem foldE_cons_ok {α β : Type} {f : β → α → Except Err β} {b b' : β} {a : α}
    (as : List α) (h : f b a = .ok b') : foldE f b (a :: as) = foldE f b' as := by
  rw [foldE_cons, h]

theorem foldE_cons_err {α β : Type} {f : β → α → Except Err β} {b : β} {a : α} {e : Err}
    (as : List α) (h : f b a = .error e) : foldE f b (a :: as) = .error e := by
  rw [foldE_cons, h]

theorem findCapsAux_some_ne_nil : ∀ (cs acc : Str), findCapsAux (some acc) cs ≠ [] := by
  intro cs
  induction cs with
  | nil => intro acc; simp [findCapsAux_some_nil]
  | cons c cs ih =>
    intro acc
    rw [findCapsAux_some_cons]
    by_cases h : isUp c = true
    · rw [if_pos h]; simp
    · rw [if_neg h]; exact ih (c :: acc)

theorem processToken_caps_nil (st : Str × List (Str × Int)) (tok : Str)
    (h : findallCaps tok = []) :
    processToken st tok =
      match pyInt tok with
      | .error e => .error e
      | .ok n => .ok (st.1, pyDictInsert st.2 st.1 n) := by
  unfold processToken
  rw [h]

theorem processToken_caps_single (st : Str × List (Str × Int)) (tok e : Str)
    (h : findallCaps tok = [e]) : processToken st tok = .ok (e, st.2) := by
  unfold processToken
  rw [h]

theorem processToken_caps_multi (st : Str × List (Str × Int)) (tok : Str) (c1 c2 : Str)
    (caps : List Str) (h : findallCaps tok = c1 :: c2 :: caps) :
    processToken st tok =
      .ok ((c1 :: c2 :: caps).getLastD [],
        ((c1 :: c2 :: caps).dropLast).foldl (fun d x => pyDictInsert d x 1) st.2) := by
  unfold processToken
  rw [h]

theorem processToken_symbol {s : Str} (hs : isSymbolB s = true)
    (st : Str × List (Str × Int)) : processToken st s = .ok (s, st.2) :=
  processToken_caps_single st s s (findallCaps_symbol hs)

theorem processToken_digits {ds : Str} (hne : ds ≠ []) (hdig : ∀ c ∈ ds, isDig c = true)
    (st : Str × List (Str × Int)) :
    processToken st ds = .ok (st.1, pyDictInsert st.2 st.1 (Int.ofNat (digitsVal ds))) := by
  rw [processToken_caps_nil st ds
    (findallCaps_none_of_nonupper (fun c hc => isDig_not_isUp (hdig c hc)))]
  rw [pyInt_digits hne hdig]

theorem processToken_merge {s t : Str} (hs : isSymbolB s = true)
    (ht : ∃ u t', t = u :: t' ∧ isUp u = true) (st : Str × List (Str × Int)) :
    processToken st (s ++ t) = processToken (st.1, pyDictInsert st.2 s 1) t := by
  have hcaps : findallCaps (s ++ t) = s :: findallCaps t := by
    apply findallCaps_symbol_append t hs
    rcases ht with ⟨u, t', rfl, hu⟩
    exact Or.inr ⟨u, t', rfl, hu⟩
  have hne : findallCaps t ≠ [] := by
    rcases ht with ⟨u, t', rfl, hu⟩
    unfold findallCaps
    rw [findCapsAux_none_cons, if_pos hu]
    exact findCapsAux_some_ne_nil t' [u]
  cases hct : findallCaps t with
  | nil => exact absurd hct hne
  | cons c1 caps' =>
    cases caps' with
    | nil =>
      rw [processToken_caps_multi st (s ++ t) s c1 [] (by rw [hcaps, hct]),
        processToken_caps_single _ t c1 hct]
      simp [List.getLastD]
    | cons c2 caps'' =>
      rw [processToken_caps_multi st (s ++ t) s c1 (c2 :: caps'') (by rw [hcaps, hct]),
        processToken_caps_multi _ t c1 c2 caps'' hct]
      rw [getLastD_cons_ne s [] (List.cons_ne_nil c1 (c2 :: caps''))]
      rw [dropLast_cons_ne s (List.cons_ne_nil c1 (c2 :: caps''))]
      rw [List.foldl_cons]

/-! Facts about `pyPop`. -/

theorem pyPop_cons (x : Str) {l : List Str} (h : l ≠ []) : pyPop (x :: l) = x :: pyPop l := by
  cases l with
  | nil => exact absurd rfl h
  | cons y t =>
    unfold pyPop
    rw [List.getLast?_cons_cons]
    by_cases hc : (y :: t).getLast? = some []
    · rw [if_pos hc, if_pos hc, dropLast_cons_ne x (List.cons_ne_nil y t)]
    · rw [if_neg hc, if_neg hc]

theorem pyPop_singleton {t : Str} (h : t ≠ []) : pyPop [t] = [t] := by
  unfold pyPop
  rw [if_neg]
  simp [h]

theorem pyPop_ne_nil_of_two {l : List Str} (h : 2 ≤ l.length) : pyPop l ≠ [] := by
  unfold pyPop
  by_cases hc : l.getLast? = some ([] : Str)
  · rw [if_pos hc]
    have : l.dropLast.length = l.length - 1 := List.length_dropLast l
    intro he
    rw [he] at this
    simp at this
    omega
  · rw [if_neg hc]
    intro he
    rw [he] at h
    simp at h

theorem popped_tokens_ne_nil {ps : List (Str × Option Str)} (hne : ps ≠ [])
    (h : wfPairs ps = true) : pyPop (tokensOf ps) ≠ [] := by
  rcases tokensOf_head_shape ps hne h with ⟨u, t0, ts, htk, _⟩
  rw [htk]
  cases ts with
  | nil =>
    rw [pyPop_singleton (List.cons_ne_nil u t0)]
    simp
  | cons y ts' =>
    rw [pyPop_cons _ (List.cons_ne_nil y ts')]
    simp

theorem pyIsAlpha_of_alpha {t : Str} (hne : t ≠ []) (h : ∀ c ∈ t, isAlph c = true) :
    pyIsAlpha t = true := by
  cases t with
  | nil => exact absurd rfl hne
  | cons c rest =>
    simp only [pyIsAlpha, List.isEmpty_cons, Bool.not_false, Bool.true_and, List.all_eq_true]
    exact h

theorem pyIsAlpha_digits_false {ds : Str} (hne : ds ≠ []) (h : ∀ c ∈ ds, isDig c = true) :
    pyIsAlpha ds = false := by
  cases ds with
  | nil => exact absurd rfl hne
  | cons d rest =>
    have : isAlph d = false := isDig_not_isAlph (h d (List.mem_cons_self d rest))
    simp [pyIsAlpha, this]

/-! The master scanner lemma: on a well-formed rendered formula the tokenizer
computes exactly the Python-dict fold of the symbol/count pairs. -/

theorem scanTail_eq : ∀ (ps : List (Str × Option Str)) (st : Str × List (Str × Int)),
    wfPairs ps = true → ps ≠ [] →
    scanTail st ps = .ok (ps.foldl (fun d p => pyDictInsert d p.1 (pairCount p)) st.2) := by
  intro ps
  induction ps with
  | nil => intro st _ hne; exact absurd rfl hne
  | cons p rest ih =>
    intro st h _
    rcases p with ⟨s, oc⟩
    rcases wfPairs_cons h with ⟨hp, hrest⟩
    have hs : isSymbolB s = true := wfPair_symbol hp
    by_cases hrn : rest = []
    · subst hrn
      cases oc with
      | none =>
        have htk : tokensOf [(s, none)] = [s] := by
          show prependHead s [[]] = [s]
          simp [prependHead]
        have ha : pyIsAlpha (([s] : List Str).getLastD []) = true :=
          pyIsAlpha_of_alpha (symbol_ne_nil hs) (symbol_all_alpha hs)
        have hf : foldE processToken st [s] = .ok (s, st.2) := by
          rw [foldE_cons_ok [] (processToken_symbol hs st), foldE_nil]
        unfold scanTail
        rw [htk, pyPop_singleton (symbol_ne_nil hs)]
        simp only [hf, ha]
        rfl
      | some ds =>
        rcases wfPair_digits hp with ⟨hdne, hdig⟩
        have hpop : pyPop (tokensOf [(s, some ds)]) = [s, ds] := rfl
        have ha : pyIsAlpha (([s, ds] : List Str).getLastD []) = false :=
          pyIsAlpha_digits_false hdne hdig
        have hf : foldE processToken st [s, ds] =
            .ok (s, pyDictInsert st.2 s (Int.ofNat (digitsVal ds))) := by
          rw [foldE_cons_ok [ds] (processToken_symbol hs st)]
          rw [foldE_cons_ok [] (processToken_digits hdne hdig (s, st.2)), foldE_nil]
        unfold scanTail
        rw [hpop]
        simp only [hf, ha]
        rfl
    · have hTne : tokensOf rest ≠ [] := tokensOf_ne_nil rest
      have hPopNe : pyPop (tokensOf rest) ≠ [] := popped_tokens_ne_nil hrn hrest
      cases oc with
      | some ds =>
        rcases wfPair_digits hp with ⟨hdne, hdig⟩
        have hstep : scanTail st ((s, some ds) :: rest) =
            scanTail (s, pyDictInsert st.2 s (Int.ofNat (digitsVal ds))) rest := by
          have hpop2 : pyPop (tokensOf ((s, some ds) :: rest)) =
              s :: ds :: pyPop (tokensOf rest) := by
            rw [tokensOf_explicit, pyPop_cons s (List.cons_ne_nil ds _), pyPop_cons ds hTne]
          have hf : foldE processToken st (s :: ds :: pyPop (tokensOf rest)) =
              foldE processToken (s, pyDictInsert st.2 s (Int.ofNat (digitsVal ds)))
                (pyPop (tokensOf rest)) := by
            rw [foldE_cons_ok _ (processToken_symbol hs st)]
            exact foldE_cons_ok _ (processToken_digits hdne hdig (s, st.2))
          have hlast : ((s :: ds :: pyPop (tokensOf rest)) : List Str).getLastD [] =
              (pyPop (tokensOf rest)).getLastD [] := by
            rw [getLastD_cons_ne s [] (List.cons_ne_nil ds _), getLastD_cons_ne ds [] hPopNe]
          unfold scanTail
          simp only [hpop2, hf, hlast]
        rw [hstep, ih (s, pyDictInsert st.2 s (Int.ofNat (digitsVal ds))) hrest hrn,
          List.foldl_cons]
        rfl
      | none =>
        rcases tokensOf_head_shape rest hrn hrest with ⟨u, t0', ts, htr, hu⟩
        have hmerge := processToken_merge hs ⟨u, t0', rfl, hu⟩ st
        have htkL : tokensOf ((s, none) :: rest) = (s ++ (u :: t0')) :: ts := by
          rw [tokensOf_implicit, htr]
          rfl
        cases ts with
        | nil =>
          have halpha : ∀ c ∈ (u :: t0' : Str), isAlph c = true :=
            tokensOf_singleton_alpha rest hrest (u :: t0') htr
          have hstep : scanTail st ((s, none) :: rest) =
              scanTail (st.1, pyDictInsert st.2 s 1) rest := by
            have hp1 : pyPop (tokensOf ((s, none) :: rest)) = [s ++ (u :: t0')] := by
              rw [htkL]
              exact pyPop_singleton (by simp)
            have hp2 : pyPop (tokensOf rest) = [u :: t0'] := by
              rw [htr]
              exact pyPop_singleton (List.cons_ne_nil u t0')
            have ha1 : pyIsAlpha (([s ++ (u :: t0')] : List Str).getLastD []) = true := by
              apply pyIsAlpha_of_alpha (by simp)
              intro c hc
              rcases List.mem_append.mp hc with hc | hc
              · exact symbol_all_alpha hs c hc
              · exact halpha c hc
            have ha2 : pyIsAlpha (([u :: t0'] : List Str).getLastD []) = true :=
              pyIsAlpha_of_alpha (List.cons_ne_nil u t0') halpha
            unfold scanTail
            simp only [hp1, hp2, foldE_cons, hmerge, ha1, ha2]
          rw [hstep, ih (st.1, pyDictInsert st.2 s 1) hrest hrn, List.foldl_cons]
          rfl
        | cons y ts' =>
          have hlen := tokensOf_length_odd rest
          rw [htr] at hlen
          have h2 : 2 ≤ (y :: ts' : List Str).length := by
            simp only [List.length_cons] at hlen ⊢
            omega
          have hpopts : pyPop (y :: ts') ≠ [] := pyPop_ne_nil_of_two h2
          have hstep : scanTail st ((s, none) :: rest) =
              scanTail (st.1, pyDictInsert st.2 s 1) rest := by
            have hp1 : pyPop (tokensOf ((s, none) :: rest)) =
                (s ++ (u :: t0')) :: pyPop (y :: ts') := by
              rw [htkL]
              exact pyPop_cons _ (List.cons_ne_nil y ts')
            have hp2 : pyPop (tokensOf rest) = (u :: t0') :: pyPop (y :: ts') := by
              rw [htr]
              exact pyPop_cons _ (List.cons_ne_nil y ts')
            have hl1 : (((s ++ (u :: t0')) :: pyPop (y :: ts')) : List Str).getLastD [] =
                (pyPop (y :: ts')).getLastD [] := getLastD_cons_ne _ [] hpopts
            have hl2 : (((u :: t0') :: pyPop (y :: ts')) : List Str).getLastD [] =
                (pyPop (y :: ts')).getLastD [] := getLastD_cons_ne _ [] hpopts
            unfold scanTail
            simp only [hp1, hp2, foldE_cons, hmerge, hl1, hl2]
          rw [hstep, ih (st.1, pyDictInsert st.2 s 1) hrest hrn, List.foldl_cons]
          rfl

theorem getLast?_eq_getLastD {α : Type} (d : α) : ∀ (l : List α), l ≠ [] →
    l.getLast? = some (l.getLastD d) := by
  intro l
  induction l with
  | nil => intro h; exact absurd rfl h
  | cons x l ih =>
    intro _
    cases l with
    | nil => rfl
    | cons y t =>
      rw [List.getLast?_cons_cons, getLastD_cons_ne x d (List.cons_ne_nil y t)]
      exact ih (List.cons_ne_nil y t)

theorem ec_render {ps : List (Str × Option Str)} (h : wfPairs ps = true) (hne : ps ≠ []) :
    element_count_from_sum_formula (renderPairs ps) = .ok (pyDictOf ps) := by
  have hscan := scanTail_eq ps ([], []) h hne
  have hPopNe : pyPop (tokensOf ps) ≠ [] := popped_tokens_ne_nil hne h
  unfold element_count_from_sum_formula
  simp only [reSplitDigits_render ps h]
  rw [getLast?_eq_getLastD [] _ hPopNe]
  exact hscan

/-! The lookup tables: key structure and the symbol ↔ atomic-number roundtrip. -/

theorem element_symbols_nodup : element_symbols.Nodup := by decide

theorem find?_unique_key {α β : Type} [DecidableEq α] : ∀ (l : List (α × β)) (k : α) (v : β),
    ((l.map Prod.fst).Nodup) → (k, v) ∈ l →
    l.find? (fun p => decide (p.1 = k)) = some (k, v) := by
  intro l
  induction l with
  | nil => intro k v _ hm; cases hm
  | cons q l ih =>
    intro k v hnd hm
    simp only [List.map_cons, List.nodup_cons] at hnd
    rcases List.mem_cons.mp hm with hq | hm'
    · rw [← hq]
      rw [List.find?_cons_of_pos _ (by simp)]
    · have hq : ¬ (q.1 = k) := by
        intro he
        exact hnd.1 (he ▸ List.mem_map.mpr ⟨(k, v), hm', rfl⟩)
      rw [List.find?_cons_of_neg _ (by simpa using hq)]
      exact ih k v hnd.2 hm'

theorem atom_number_entries_keys : atom_number_entries.map Prod.fst = element_symbols := by
  unfold atom_number_entries
  rw [List.map_map]
  exact List.enum_map_snd element_symbols

theorem number_atom_entries_keys :
    number_atom_entries.map Prod.fst = (List.range element_symbols.length).map (· + 1) := by
  unfold number_atom_entries
  rw [List.map_map, ← List.enum_map_fst element_symbols, List.map_map]
  rfl

theorem number_atom_entries_keys_nodup : (number_atom_entries.map Prod.fst).Nodup := by
  rw [number_atom_entries_keys]
  exact (List.nodup_range _).map (fun a b => by omega)

theorem mem_atom_number_entries {s : Str} {n : Nat} :
    (s, n) ∈ atom_number_entries ↔ ∃ i, element_symbols[i]? = some s ∧ n = i + 1 := by
  unfold atom_number_entries
  rw [List.mem_map]
  constructor
  · rintro ⟨⟨i, t⟩, hmem, heq⟩
    simp only [Prod.mk.injEq] at heq
    rw [List.mk_mem_enum_iff_getElem?] at hmem
    exact ⟨i, by rw [heq.1] at hmem; exact hmem, heq.2.symm⟩
  · rintro ⟨i, hget, hn⟩
    exact ⟨(i, s), List.mk_mem_enum_iff_getElem?.mpr hget, by simp [hn]⟩

theorem mem_number_atom_entries {s : Str} {n : Nat} :
    (n, s) ∈ number_atom_entries ↔ ∃ i, element_symbols[i]? = some s ∧ n = i + 1 := by
  unfold number_atom_entries
  rw [List.mem_map]
  constructor
  · rintro ⟨⟨i, t⟩, hmem, heq⟩
    simp only [Prod.mk.injEq] at heq
    rw [List.mk_mem_enum_iff_getElem?] at hmem
    exact ⟨i, by rw [heq.2] at hmem; exact hmem, heq.1.symm⟩
  · rintro ⟨i, hget, hn⟩
    exact ⟨(i, s), List.mk_mem_enum_iff_getElem?.mpr hget, by simp [hn]⟩

theorem atom_number_dict_some {s : Str} {n : Nat} (h : atom_number_dict s = some n) :
    (s, n) ∈ atom_number_entries := by
  unfold atom_number_dict pyDictGet? at h
  rcases Option.map_eq_some'.mp h with ⟨p, hfind, hsnd⟩
  have hfst : p.1 = s := by simpa using List.find?_some hfind
  have hmem := List.mem_of_find?_eq_some hfind
  have : p = (s, n) := by
    rcases p with ⟨a, b⟩
    simp only at hfst hsnd
    rw [hfst, hsnd]
  rw [this] at hmem
  exact hmem

theorem number_atom_dict_some {s : Str} {n : Nat} (h : number_atom_dict n = some s) :
    (n, s) ∈ number_atom_entries := by
  unfold number_atom_dict pyDictGet? at h
  rcases Option.map_eq_some'.mp h with ⟨p, hfind, hsnd⟩
  have hfst : p.1 = n := by simpa using List.find?_some hfind
  have hmem := List.mem_of_find?_eq_some hfind
  have : p = (n, s) := by
    rcases p with ⟨a, b⟩
    simp only at hfst hsnd
    rw [hfst, hsnd]
  rw [this] at hmem
  exact hmem

theorem atom_number_dict_of_mem {s : Str} {n : Nat} (h : (s, n) ∈ atom_number_entries) :
    atom_number_dict s = some n := by
  unfold atom_number_dict pyDictGet?
  rw [find?_unique_key atom_number_entries s n
    (by rw [atom_number_entries_keys]; exact element_symbols_nodup) h]
  rfl

theorem number_atom_dict_of_mem {s : Str} {n : Nat} (h : (n, s) ∈ number_atom_entries) :
    number_atom_dict n = some s := by
  unfold number_atom_dict pyDictGet?
  rw [find?_unique_key number_atom_entries n s number_atom_entries_keys_nodup h]
  rfl

theorem number_atom_of_atom_number {s : Str} {n : Nat} (h : atom_number_dict s = some n) :
    number_atom_dict n = some s := by
  apply number_atom_dict_of_mem
  exact mem_number_atom_entries.mpr (mem_atom_number_entries.mp (atom_number_dict_some h))

theorem atom_number_of_number_atom {s : Str} {n : Nat} (h : number_atom_dict n = some s) :
    atom_number_dict s = some n := by
  apply atom_number_dict_of_mem
  exact mem_atom_number_entries.mpr (mem_number_atom_entries.mp (number_atom_dict_some h))

theorem anD_inj {s1 s2 : Str} (h1 : atom_number_dict s1 ≠ none)
    (h2 : atom_number_dict s2 ≠ none) (he : anD s1 = anD s2) : s1 = s2 := by
  rcases Option.ne_none_iff_exists'.mp h1 with ⟨n1, hn1⟩
  rcases Option.ne_none_iff_exists'.mp h2 with ⟨n2, hn2⟩
  have e1 : anD s1 = n1 := by simp [anD, hn1]
  have e2 : anD s2 = n2 := by simp [anD, hn2]
  have : n1 = n2 := by rw [← e1, ← e2, he]
  subst this
  have r1 := number_atom_of_atom_number hn1
  have r2 := number_atom_of_atom_number hn2
  rw [r1] at r2
  simpa using r2

/-! Evaluation of the node labeler. -/

theorem exceptThen_ok {α β : Type} (g : α → Except Err β) (a : α) :
    exceptThen g (.ok a) = g a := rfl

theorem exceptThen_err {α β : Type} (g : α → Except Err β) (e : Err) :
    exceptThen g (.error e) = .error e := rfl

theorem exceptMap_ok {α β : Type} (f : α → β) (a : α) :
    exceptMap f (.ok a) = .ok (f a) := rfl

theorem exceptMap_err {α β : Type} (f : α → β) (e : Err) :
    exceptMap f (.error e) = .error e := rfl

theorem keyStep_ok {p : Str × Int} {n : Nat} (acc : List (Nat × Int))
    (h : atom_number_dict p.1 = some n) : keyStep acc p = .ok (acc ++ [(n, p.2)]) := by
  unfold keyStep
  rw [h]

theorem keyStep_err {p : Str × Int} (acc : List (Nat × Int))
    (h : atom_number_dict p.1 = none) : keyStep acc p = .error (.keyError p.1) := by
  unfold keyStep
  rw [h]

theorem foldE_keyStep_ok : ∀ (m : List (Str × Int)) (acc : List (Nat × Int)),
    (∀ p ∈ m, atom_number_dict p.1 ≠ none) →
    foldE keyStep acc m = .ok (acc ++ m.map (fun p => (anD p.1, p.2))) := by
  intro m
  induction m with
  | nil => intro acc _; simp [foldE_nil]
  | cons p m ih =>
    intro acc h
    rcases Option.ne_none_iff_exists'.mp (h p (List.mem_cons_self p m)) with ⟨n, hn⟩
    rw [foldE_cons_ok m (keyStep_ok acc hn)]
    rw [ih (acc ++ [(n, p.2)]) (fun q hq => h q (List.mem_cons_of_mem p hq))]
    simp [anD, hn, List.append_assoc]

theorem foldE_keyStep_err : ∀ (m : List (Str × Int)) (acc : List (Nat × Int)),
    (∃ p ∈ m, atom_number_dict p.1 = none) →
    ∃ s, (∃ v, (s, v) ∈ m) ∧ atom_number_dict s = none ∧
      foldE keyStep acc m = .error (.keyError s) := by
  intro m
  induction m with
  | nil => rintro acc ⟨p, hp, _⟩; cases hp
  | cons p m ih =>
    intro acc hex
    by_cases hp : atom_number_dict p.1 = none
    · exact ⟨p.1, ⟨p.2, by simp⟩, hp, foldE_cons_err m (keyStep_err acc hp)⟩
    · rcases Option.ne_none_iff_exists'.mp hp with ⟨n, hn⟩
      have hex' : ∃ q ∈ m, atom_number_dict q.1 = none := by
        rcases hex with ⟨q, hq, hqn⟩
        rcases List.mem_cons.mp hq with rfl | hq'
        · exact absurd hqn hp
        · exact ⟨q, hq', hqn⟩
      rcases ih (acc ++ [(n, p.2)]) hex' with ⟨s, ⟨v, hv⟩, hs, hfold⟩
      refine ⟨s, ⟨v, List.mem_cons_of_mem p hv⟩, hs, ?_⟩
      rw [foldE_cons_ok m (keyStep_ok acc hn)]
      exact hfold

theorem expandStep_nonpos {q : Nat × Int} (acc : List Str) (h : q.2 ≤ 0) :
    expandStep acc q = .ok acc := by
  unfold expandStep
  rw [if_pos h]

theorem expandStep_pos {q : Nat × Int} {e : Str} (acc : List Str) (hpos : 0 < q.2)
    (h : number_atom_dict q.1 = some e) :
    expandStep acc q = .ok (acc ++ List.replicate q.2.toNat e) := by
  unfold expandStep
  rw [if_neg (by omega), h]

theorem foldE_expandStep_ok : ∀ (L : List (Nat × Int)) (acc : List Str),
    (∀ q ∈ L, 0 < q.2 → number_atom_dict q.1 ≠ none) →
    foldE expandStep acc L =
      .ok (acc ++ L.flatMap (fun q => List.replicate q.2.toNat (naD q.1))) := by
  intro L
  induction L with
  | nil => intro acc _; simp [foldE_nil]
  | cons q L ih =>
    intro acc h
    by_cases hq : q.2 ≤ 0
    · rw [foldE_cons_ok L (expandStep_nonpos acc hq)]
      rw [ih acc (fun r hr => h r (List.mem_cons_of_mem q hr))]
      simp [List.flatMap_cons, Int.toNat_of_nonpos hq]
    · have hpos : 0 < q.2 := by omega
      rcases Option.ne_none_iff_exists'.mp (h q (List.mem_cons_self q L) hpos) with ⟨e, he⟩
      rw [foldE_cons_ok L (expandStep_pos acc hpos he)]
      rw [ih _ (fun r hr => h r (List.mem_cons_of_mem q hr))]
      simp [naD, he, List.flatMap_cons, List.append_assoc]

theorem keyed_keys_nodup {m : List (Str × Int)} (hnd : (m.map Prod.fst).Nodup)
    (hknown : ∀ p ∈ m, atom_number_dict p.1 ≠ none) :
    ((m.map (fun p => (anD p.1, p.2))).map Prod.fst).Nodup := by
  rw [List.map_map]
  have : (Prod.fst ∘ fun p : Str × Int => (anD p.1, p.2)) = (anD ∘ Prod.fst) := rfl
  rw [this, ← List.map_map]
  apply List.Nodup.map_on ?_ hnd
  intro x hx y hy hxy
  rcases List.mem_map.mp hx with ⟨px, hpx, hx'⟩
  rcases List.mem_map.mp hy with ⟨py, hpy, hy'⟩
  exact anD_inj (hx' ▸ hknown px hpx) (hy' ▸ hknown py hpy) hxy

theorem graph_nodes_eval {m : List (Str × Int)} (hnd : (m.map Prod.fst).Nodup)
    (hknown : ∀ p ∈ m, atom_number_dict p.1 ≠ none) :
    graph_nodes_from_element_count m = .ok (nodesOf m) := by
  have h1 : foldE keyStep [] m = .ok (m.map (fun p => (anD p.1, p.2))) := by
    have := foldE_keyStep_ok m [] hknown
    rwa [List.nil_append] at this
  have hdict : (m.map (fun p => (anD p.1, p.2))).foldl
      (fun d (q : Nat × Int) => pyDictInsert d q.1 q.2) [] = m.map (fun p => (anD p.1, p.2)) := by
    have := foldl_pyDictInsert_nodup (m.map (fun p => (anD p.1, p.2))) []
      (by rw [List.nil_append]; exact keyed_keys_nodup hnd hknown)
    rwa [List.nil_append] at this
  have hexp : ∀ q ∈ insertionSortBy pairTupleLe (m.map (fun p => (anD p.1, p.2))),
      0 < q.2 → number_atom_dict q.1 ≠ none := by
    intro q hq _
    have hq' : q ∈ m.map (fun p => (anD p.1, p.2)) :=
      (insertionSortBy_perm pairTupleLe _).mem_iff.mp hq
    rcases List.mem_map.mp hq' with ⟨p, hp, hq''⟩
    rcases Option.ne_none_iff_exists'.mp (hknown p hp) with ⟨n, hn⟩
    have : q.1 = n := by rw [← hq'']; simp [anD, hn]
    rw [this, number_atom_of_atom_number hn]
    simp
  have h2 : foldE expandStep []
      (insertionSortBy pairTupleLe (m.map (fun p => (anD p.1, p.2)))) =
      .ok ((insertionSortBy pairTupleLe (m.map (fun p => (anD p.1, p.2)))).flatMap
        (fun q => List.replicate q.2.toNat (naD q.1))) := by
    have := foldE_expandStep_ok _ [] hexp
    rwa [List.nil_append] at this
  unfold graph_nodes_from_element_count
  rw [h1, exceptThen_ok]
  simp only [hdict, h2, exceptMap_ok]
  rfl

/-! Structure of the enumerated node mapping. -/

theorem enumNodes_map_fst : ∀ (l : List Str) (n : Nat),
    (enumNodes n l).map Prod.fst = List.range' (n + 1) l.length := by
  intro l
  induction l with
  | nil => intro n; simp [enumNodes]
  | cons a as ih =>
    intro n
    simp only [enumNodes, List.map_cons, List.length_cons, List.range'_succ]
    rw [ih (n + 1)]

theorem enumNodes_length : ∀ (l : List Str) (n : Nat), (enumNodes n l).length = l.length := by
  intro l
  induction l with
  | nil => intro n; rfl
  | cons a as ih =>
    intro n
    simp only [enumNodes, List.length_cons]
    rw [ih (n + 1)]

theorem enumNodes_key_lb : ∀ (l : List Str) (n : Nat) (p : Nat × Str),
    p ∈ enumNodes n l → n < p.1 := by
  intro l
  induction l with
  | nil => intro n p hp; cases hp
  | cons a as ih =>
    intro n p hp
    rcases List.mem_cons.mp hp with rfl | hp'
    · simp
    · have := ih (n + 1) p hp'
      omega

theorem enumNodes_mem_snd : ∀ (l : List Str) (n : Nat) (p : Nat × Str),
    p ∈ enumNodes n l → p.2 ∈ l := by
  intro l
  induction l with
  | nil => intro n p hp; cases hp
  | cons a as ih =>
    intro n p hp
    rcases List.mem_cons.mp hp with rfl | hp'
    · simp
    · exact List.mem_cons_of_mem a (ih (n + 1) p hp')

theorem enumNodes_pairwise {R : Str → Str → Prop} : ∀ (l : List Str) (n : Nat),
    List.Pairwise R l →
    List.Pairwise (fun p q => p.1 < q.1 ∧ R p.2 q.2) (enumNodes n l) := by
  intro l
  induction l with
  | nil => intro n _; exact List.Pairwise.nil
  | cons a as ih =>
    intro n h
    rcases List.pairwise_cons.mp h with ⟨ha, has⟩
    refine List.pairwise_cons.mpr ⟨?_, ih (n + 1) has⟩
    intro q hq
    exact ⟨enumNodes_key_lb as (n + 1) q hq, ha q.2 (enumNodes_mem_snd as (n + 1) q hq)⟩

/-- Comparison of node values by atomic number (used to state orderedness of
the node list). -/
theorem node_list_pairwise :
    ∀ (L : List (Nat × Int)),
    List.Pairwise (fun a b => pairTupleLe a b = true) L →
    (∀ q ∈ L, 0 < q.2 → number_atom_dict q.1 ≠ none) →
    List.Pairwise (fun e1 e2 => ∀ a b, atom_number_dict e1 = some a →
        atom_number_dict e2 = some b → a ≤ b)
      (L.flatMap (fun q => List.replicate q.2.toNat (naD q.1))) := by
  intro L
  induction L with
  | nil => intro _ _; exact List.Pairwise.nil
  | cons q L ih =>
    intro hs hk
    rcases List.pairwise_cons.mp hs with ⟨hq, hL⟩
    rw [List.flatMap_cons]
    rw [List.pairwise_append]
    refine ⟨?_, ih hL (fun r hr => hk r (List.mem_cons_of_mem q hr)), ?_⟩
    · rw [List.pairwise_replicate]
      right
      intro a b h1 h2
      rw [h1] at h2
      simp only [Option.some.injEq] at h2
      omega
    · intro x hx y hy
      have hxq : x = naD q.1 := List.eq_of_mem_replicate hx
      have hqpos : 0 < q.2 := by
        rcases List.mem_replicate.mp hx with ⟨hn0, _⟩
        omega
      rcases List.mem_flatMap.mp hy with ⟨r, hr, hyr⟩
      have hyrq : y = naD r.1 := List.eq_of_mem_replicate hyr
      have hrpos : 0 < r.2 := by
        rcases List.mem_replicate.mp hyr with ⟨hn0, _⟩
        omega
      intro a b h1 h2
      rcases Option.ne_none_iff_exists'.mp (hk q (List.mem_cons_self q L) hqpos) with ⟨e, he⟩
      rcases Option.ne_none_iff_exists'.mp
        (hk r (List.mem_cons_of_mem q hr) hrpos) with ⟨f, hf⟩
      have hx' : x = e := by rw [hxq]; simp [naD, he]
      have hy' : y = f := by rw [hyrq]; simp [naD, hf]
      have ha : a = q.1 := by
        have := atom_number_of_number_atom he
        rw [hx'] at h1
        rw [this] at h1
        simpa using h1.symm
      have hb : b = r.1 := by
        have := atom_number_of_number_atom hf
        rw [hy'] at h2
        rw [this] at h2
        simpa using h2.symm
      have := hq r hr
      simp only [pairTupleLe, Bool.or_eq_true, Bool.and_eq_true, decide_eq_true_eq] at this
      omega

theorem sorted_pairs_known {m : List (Str × Int)}
    (hknown : ∀ p ∈ m, atom_number_dict p.1 ≠ none) :
    ∀ q ∈ insertionSortBy pairTupleLe (m.map (fun p => (anD p.1, p.2))),
      0 < q.2 → number_atom_dict q.1 ≠ none := by
  intro q hq _
  have hq' : q ∈ m.map (fun p => (anD p.1, p.2)) :=
    (insertionSortBy_perm pairTupleLe _).mem_iff.mp hq
  rcases List.mem_map.mp hq' with ⟨p, hp, hq''⟩
  rcases Option.ne_none_iff_exists'.mp (hknown p hp) with ⟨n, hn⟩
  have : q.1 = n := by rw [← hq'']; simp [anD, hn]
  rw [this, number_atom_of_atom_number hn]
  simp

theorem sum_toNat_cast : ∀ (l : List Int), (∀ x ∈ l, 0 ≤ x) →
    ((l.map Int.toNat).sum : Int) = l.sum := by
  intro l
  induction l with
  | nil => intro _; simp
  | cons x l ih =>
    intro h
    simp only [List.map_cons, List.sum_cons, Nat.cast_add]
    rw [ih (fun y hy => h y (List.mem_cons_of_mem x hy)),
      Int.toNat_of_nonneg (h x (List.mem_cons_self x l))]

/-- C1: for every element-count mapping whose symbols are all in the lookup
table, `graph_nodes_from_element_count` succeeds and returns a node mapping
whose keys are exactly the contiguous range `1..N`, and in which every node-id
of an element with a lower atomic number is strictly smaller than every
node-id of an element with a higher atomic number. -/
theorem claim_C1_node_mapping_contiguous_ordered (m : List (Str × Int))
    (hnd : (m.map Prod.fst).Nodup)
    (hknown : ∀ p ∈ m, atom_number_dict p.1 ≠ none) :
    ∃ nodes, graph_nodes_from_element_count m = .ok nodes ∧
      nodes.map Prod.fst = List.range' 1 nodes.length ∧
      ∀ p ∈ nodes, ∀ q ∈ nodes, ∀ a b, atom_number_dict p.2 = some a →
        atom_number_dict q.2 = some b → a < b → p.1 < q.1 := by
  refine ⟨nodesOf m, graph_nodes_eval hnd hknown, ?_, ?_⟩
  · unfold nodesOf
    rw [enumNodes_map_fst, enumNodes_length]
  · intro p hp q hq a b ha hb hab
    have hsorted := insertionSortBy_pairwise pairTupleLe pairTupleLe_total pairTupleLe_trans
      (m.map (fun p => (anD p.1, p.2)))
    have hpw := node_list_pairwise _ hsorted (sorted_pairs_known hknown)
    have hpw2 := enumNodes_pairwise _ 0 hpw
    unfold nodesOf at hp hq
    rcases List.mem_iff_get.mp hp with ⟨i, hi⟩
    rcases List.mem_iff_get.mp hq with ⟨j, hj⟩
    have hpg := List.pairwise_iff_get.mp hpw2
    rcases lt_trichotomy i j with hij | hij | hij
    · have := hpg i j hij
      rw [hi, hj] at this
      exact this.1
    · exfalso
      rw [← hij, hi] at hj
      rw [hj] at ha
      rw [ha] at hb
      simp only [Option.some.injEq] at hb
      omega
    · exfalso
      have := hpg j i hij
      rw [hi, hj] at this
      have := this.2 b a hb ha
      omega

/-- C1 witness: a concrete two-element mapping instantiating the theorem. -/
theorem claim_C1_witness :
    ((([(['C'], 2), (['H'], 1)] : List (Str × Int)).map Prod.fst).Nodup) ∧
    (∃ nodes, graph_nodes_from_element_count [(['C'], 2), (['H'], 1)] = .ok nodes ∧
      nodes.map Prod.fst = List.range' 1 nodes.length ∧
      ∀ p ∈ nodes, ∀ q ∈ nodes, ∀ a b, atom_number_dict p.2 = some a →
        atom_number_dict q.2 = some b → a < b → p.1 < q.1) :=
  ⟨by decide, claim_C1_node_mapping_contiguous_ordered [(['C'], 2), (['H'], 1)]
    (by decide) (by decide)⟩

/-- C5: for every element-count mapping whose symbols are all in the lookup
table (counts nonnegative, as element counts are), the number of node-mapping
entries equals the sum of the counts. -/
theorem claim_C5_node_count_is_sum (m : List (Str × Int))
    (hnd : (m.map Prod.fst).Nodup)
    (hknown : ∀ p ∈ m, atom_number_dict p.1 ≠ none)
    (hnonneg : ∀ p ∈ m, 0 ≤ p.2) :
    ∃ nodes, graph_nodes_from_element_count m = .ok nodes ∧
      (nodes.length : Int) = (m.map Prod.snd).sum := by
  refine ⟨nodesOf m, graph_nodes_eval hnd hknown, ?_⟩
  unfold nodesOf
  rw [enumNodes_length, List.length_flatMap]
  have h1 : List.map (List.length ∘ fun q : Nat × Int => List.replicate q.2.toNat (naD q.1))
      (insertionSortBy pairTupleLe (m.map (fun p => (anD p.1, p.2)))) =
      (insertionSortBy pairTupleLe (m.map (fun p => (anD p.1, p.2)))).map
        (fun q => q.2.toNat) := by
    simp [Function.comp]
  rw [h1]
  have hperm := insertionSortBy_perm pairTupleLe (m.map (fun p => (anD p.1, p.2)))
  rw [(hperm.map (fun q : Nat × Int => q.2.toNat)).sum_eq]
  rw [List.map_map]
  have h2 : ((fun q : Nat × Int => q.2.toNat) ∘ fun p : Str × Int => (anD p.1, p.2)) =
      (Int.toNat ∘ Prod.snd) := rfl
  rw [h2, ← List.map_map]
  rw [sum_toNat_cast (m.map Prod.snd) (by
    intro x hx
    rcases List.mem_map.mp hx with ⟨p, hp, hx'⟩
    rw [← hx']
    exact hnonneg p hp)]

/-- C5 witness: a concrete mapping instantiating the theorem. -/
theorem claim_C5_witness :
    ((([(['H'], 4), (['O'], 1)] : List (Str × Int)).map Prod.fst).Nodup) ∧
    (∃ nodes, graph_nodes_from_element_count [(['H'], 4), (['O'], 1)] = .ok nodes ∧
      (nodes.length : Int) = (([(['H'], 4), (['O'], 1)] : List (Str × Int)).map Prod.snd).sum) :=
  ⟨by decide, claim_C5_node_count_is_sum [(['H'], 4), (['O'], 1)]
    (by decide) (by decide) (by decide)⟩

/-- C4: two sum-formula strings that parse to the same element-count mapping
(the same key/count pairs, possibly in a different dict order, with symbols in
the lookup table) yield identical node mappings through the node pipeline. -/
theorem claim_C4_same_multiset_same_nodes (f1 f2 : Str) (m1 m2 : List (Str × Int))
    (_hec1 : element_count_from_sum_formula f1 = .ok m1)
    (_hec2 : element_count_from_sum_formula f2 = .ok m2)
    (hperm : m1.Perm m2)
    (hnd : (m1.map Prod.fst).Nodup)
    (hknown : ∀ p ∈ m1, atom_number_dict p.1 ≠ none) :
    graph_nodes_from_element_count m1 = graph_nodes_from_element_count m2 := by
  have hnd2 : (m2.map Prod.fst).Nodup := ((hperm.map Prod.fst).nodup_iff).mp hnd
  have hknown2 : ∀ p ∈ m2, atom_number_dict p.1 ≠ none := fun p hp =>
    hknown p (hperm.mem_iff.mpr hp)
  rw [graph_nodes_eval hnd hknown, graph_nodes_eval hnd2 hknown2]
  have hsorteq : insertionSortBy pairTupleLe (m1.map (fun p => (anD p.1, p.2))) =
      insertionSortBy pairTupleLe (m2.map (fun p => (anD p.1, p.2))) := by
    exact @List.eq_of_perm_of_sorted (Nat × Int) (fun a b => pairTupleLe a b = true)
      ⟨pairTupleLe_antisymm⟩ _ _
      (((insertionSortBy_perm _ _).trans
        (hperm.map _)).trans (insertionSortBy_perm pairTupleLe _).symm)
      (insertionSortBy_pairwise _ pairTupleLe_total pairTupleLe_trans _)
      (insertionSortBy_pairwise _ pairTupleLe_total pairTupleLe_trans _)
  unfold nodesOf
  rw [hsorteq]

/-- C4 witness: the spec's own example, `"C2H4O"` versus `"H4OC2"`. -/
theorem claim_C4_witness :
    element_count_from_sum_formula ['C','2','H','4','O'] =
      .ok [(['C'], 2), (['H'], 4), (['O'], 1)] ∧
    element_count_from_sum_formula ['H','4','O','C','2'] =
      .ok [(['H'], 4), (['O'], 1), (['C'], 2)] ∧
    graph_nodes_from_element_count [(['C'], 2), (['H'], 4), (['O'], 1)] =
      graph_nodes_from_element_count [(['H'], 4), (['O'], 1), (['C'], 2)] :=
  ⟨by decide, by decide,
    claim_C4_same_multiset_same_nodes ['C','2','H','4','O'] ['H','4','O','C','2']
      [(['C'], 2), (['H'], 4), (['O'], 1)] [(['H'], 4), (['O'], 1), (['C'], 2)]
      (by decide) (by decide) (by decide) (by decide) (by decide)⟩

/-- C2: any TUCAN string whose sum-formula section (the part before the first
`/`) is `C2H4O` yields element counts `{C:2, H:4, O:1}`, the node mapping
`{1:H, 2:H, 3:H, 4:H, 5:C, 6:C, 7:O}`, and in atomic-number mode
`{1:1, 2:1, 3:1, 4:1, 5:6, 6:6, 7:8}`. -/
theorem claim_C2_c2h4o_scenario (s : Str)
    (h : (pySplitChar s '/').headD [] = ['C','2','H','4','O']) :
    element_count_from_sum_formula ['C','2','H','4','O'] =
      .ok [(['C'], 2), (['H'], 4), (['O'], 1)] ∧
    tucan_string_to_graph_nodes s true =
      .ok [(1, .sym ['H']), (2, .sym ['H']), (3, .sym ['H']), (4, .sym ['H']),
        (5, .sym ['C']), (6, .sym ['C']), (7, .sym ['O'])] ∧
    tucan_string_to_graph_nodes s false =
      .ok [(1, .num 1), (2, .num 1), (3, .num 1), (4, .num 1),
        (5, .num 6), (6, .num 6), (7, .num 8)] := by
  refine ⟨by decide, ?_, ?_⟩
  · simp only [tucan_string_to_graph_nodes, h]
    decide
  · simp only [tucan_string_to_graph_nodes, h]
    decide

/-- C2 witness: the bare formula string `C2H4O` itself. -/
theorem claim_C2_witness :
    (pySplitChar ['C','2','H','4','O'] '/').headD [] = ['C','2','H','4','O'] ∧
    (element_count_from_sum_formula ['C','2','H','4','O'] =
        .ok [(['C'], 2), (['H'], 4), (['O'], 1)] ∧
      tucan_string_to_graph_nodes ['C','2','H','4','O'] true =
        .ok [(1, .sym ['H']), (2, .sym ['H']), (3, .sym ['H']), (4, .sym ['H']),
          (5, .sym ['C']), (6, .sym ['C']), (7, .sym ['O'])] ∧
      tucan_string_to_graph_nodes ['C','2','H','4','O'] false =
        .ok [(1, .num 1), (2, .num 1), (3, .num 1), (4, .num 1),
          (5, .num 6), (6, .num 6), (7, .num 8)]) :=
  ⟨by decide, claim_C2_c2h4o_scenario ['C','2','H','4','O'] (by decide)⟩

/-- C7: an element-count mapping containing a symbol absent from the lookup
table makes `graph_nodes_from_element_count` fail with a lookup-key error on
such a symbol (never a silent default), while `element_count_from_sum_formula`
itself succeeds on every well-formed formula regardless of whether its symbols
are known — so the node labeler is the only stage detecting unknown symbols. -/
theorem claim_C7_unknown_symbol_detection :
    (∀ m : List (Str × Int), (∃ p ∈ m, atom_number_dict p.1 = none) →
      ∃ s, (∃ v, (s, v) ∈ m) ∧ atom_number_dict s = none ∧
        graph_nodes_from_element_count m = .error (.keyError s)) ∧
    (∀ ps : List (Str × Option Str), wfPairs ps = true → ps ≠ [] →
      element_count_from_sum_formula (renderPairs ps) = .ok (pyDictOf ps)) := by
  constructor
  · intro m hex
    rcases foldE_keyStep_err m [] hex with ⟨s, hmem, hnone, hfold⟩
    refine ⟨s, hmem, hnone, ?_⟩
    unfold graph_nodes_from_element_count
    rw [hfold, exceptThen_err]
  · intro ps h hne
    exact ec_render h hne

/-- C7 witness: the unknown symbol `Xx` in both halves. -/
theorem claim_C7_witness :
    ((∃ p ∈ ([(['X','x'], 1)] : List (Str × Int)), atom_number_dict p.1 = none) ∧
      ∃ s, (∃ v, (s, v) ∈ ([(['X','x'], 1)] : List (Str × Int))) ∧
        atom_number_dict s = none ∧
        graph_nodes_from_element_count [(['X','x'], 1)] = .error (.keyError s)) ∧
    (wfPairs [(['X','x'], none)] = true ∧
      element_count_from_sum_formula (renderPairs [(['X','x'], none)]) =
        .ok (pyDictOf [(['X','x'], none)])) :=
  ⟨⟨by decide, claim_C7_unknown_symbol_detection.1 [(['X','x'], 1)] (by decide)⟩,
    by decide,
    claim_C7_unknown_symbol_detection.2 [(['X','x'], none)] (by decide) (by simp)⟩

/-! Invariant machinery for C8: any successful scan inserts only nonempty keys. -/

theorem keys_good_insert {d : List (Str × Int)} {k : Str} {v : Int}
    (hd : ∀ q ∈ d, q.1 ≠ []) (hk : k ≠ []) : ∀ q ∈ pyDictInsert d k v, q.1 ≠ [] := by
  intro q hq
  rcases pyDictInsert_key_cases d k v q hq with h | h
  · rw [h]; exact hk
  · rcases List.mem_map.mp h with ⟨q₀, hq₀, hfst⟩
    rw [← hfst]
    exact hd q₀ hq₀

theorem keys_good_foldl_insert1 : ∀ (xs : List Str) (d : List (Str × Int)),
    (∀ x ∈ xs, x ≠ []) → (∀ q ∈ d, q.1 ≠ []) →
    ∀ q ∈ xs.foldl (fun d x => pyDictInsert d x 1) d, q.1 ≠ [] := by
  intro xs
  induction xs with
  | nil => intro d _ hd; simpa using hd
  | cons x xs ih =>
    intro d hxs hd
    simp only [List.foldl_cons]
    exact ih (pyDictInsert d x 1)
      (fun y hy => hxs y (List.mem_cons_of_mem x hy))
      (keys_good_insert hd (hxs x (List.mem_cons_self x xs)))

theorem caps_ne_nil {t r : Str} (hr : r ∈ findallCaps t) : r ≠ [] := by
  rcases findallCaps_mem_shape hr with ⟨u, rest, rfl, _⟩
  simp

theorem processToken_inv {st st' : Str × List (Str × Int)} {t : Str}
    (hok : processToken st t = .ok st')
    (hd : ∀ q ∈ st.2, q.1 ≠ [])
    (hst : st.1 ≠ [] ∨ findallCaps t ≠ []) :
    st'.1 ≠ [] ∧ ∀ q ∈ st'.2, q.1 ≠ [] := by
  cases hct : findallCaps t with
  | nil =>
    rw [processToken_caps_nil st t hct] at hok
    cases hpi : pyInt t with
    | error e =>
      rw [hpi] at hok
      exact absurd hok (by simp)
    | ok n =>
      rw [hpi] at hok
      simp only [Except.ok.injEq] at hok
      rw [← hok]
      have hp : st.1 ≠ [] := by
        rcases hst with h | h
        · exact h
        · exact absurd hct h
      exact ⟨hp, keys_good_insert hd hp⟩
  | cons e caps' =>
    cases caps' with
    | nil =>
      rw [processToken_caps_single st t e hct] at hok
      simp only [Except.ok.injEq] at hok
      rw [← hok]
      exact ⟨caps_ne_nil (t := t) (by rw [hct]; simp), hd⟩
    | cons e2 caps'' =>
      rw [processToken_caps_multi st t e e2 caps'' hct] at hok
      simp only [Except.ok.injEq] at hok
      rw [← hok]
      constructor
      · apply caps_ne_nil (t := t)
        rw [hct]
        exact getLastD_mem _ [] (by simp)
      · apply keys_good_foldl_insert1 _ _ ?_ hd
        intro x hx
        apply caps_ne_nil (t := t)
        rw [hct]
        exact List.Sublist.mem hx (List.dropLast_sublist _)

theorem foldE_processToken_inv : ∀ (toks : List Str) (st st' : Str × List (Str × Int)),
    st.1 ≠ [] → (∀ q ∈ st.2, q.1 ≠ []) →
    foldE processToken st toks = .ok st' → st'.1 ≠ [] ∧ ∀ q ∈ st'.2, q.1 ≠ [] := by
  intro toks
  induction toks with
  | nil =>
    intro st st' h1 h2 hok
    rw [foldE_nil] at hok
    simp only [Except.ok.injEq] at hok
    rw [← hok]
    exact ⟨h1, h2⟩
  | cons t toks ih =>
    intro st st' h1 h2 hok
    cases hpt : processToken st t with
    | error e =>
      rw [foldE_cons_err toks hpt] at hok
      exact absurd hok (by simp)
    | ok st₁ =>
      rw [foldE_cons_ok toks hpt] at hok
      have hinv := processToken_inv hpt h2 (Or.inl h1)
      exact ih st₁ st' hinv.1 hinv.2 hok

/-- C8: a sum formula that contains a digit run with no element symbol before
it (no uppercase letter precedes the first digit) makes
`element_count_from_sum_formula` fail with a hard `int()` parse error on the
prefix before the first digit; and no successful run ever returns a mapping
with the empty string as a key. -/
theorem claim_C8_digit_without_element :
    (∀ s : Str, (∃ c ∈ s, isDig c = true) →
      (∀ c ∈ s.takeWhile (fun c => !isDig c), isUp c = false) →
      element_count_from_sum_formula s =
        .error (.intParse (s.takeWhile (fun c => !isDig c)))) ∧
    (∀ (s : Str) (m : List (Str × Int)), element_count_from_sum_formula s = .ok m →
      ∀ v : Int, ([], v) ∉ m) := by
  constructor
  · intro s hdig hnoup
    rcases reSplitAux_false_head s [] with ⟨tl, htl, htlne⟩
    simp only [List.reverse_nil, List.nil_append] at htl
    have htlne' := htlne hdig
    have hpt : processToken ([], []) (s.takeWhile (fun c => !isDig c)) =
        .error (.intParse (s.takeWhile (fun c => !isDig c))) := by
      rw [processToken_caps_nil _ _ (findallCaps_none_of_nonupper hnoup)]
      rw [pyInt_no_digit (fun c hc => by
        have := List.mem_takeWhile_imp hc
        simpa using this)]
    have hsplit : reSplitDigits s = (s.takeWhile (fun c => !isDig c)) :: tl := htl
    have hpop := pyPop_cons (s.takeWhile (fun c => !isDig c)) htlne'
    have hlast := getLast?_eq_getLastD ([] : Str)
      ((s.takeWhile (fun c => !isDig c)) :: pyPop tl) (by simp)
    have hfold := foldE_cons_err (pyPop tl) hpt
    unfold element_count_from_sum_formula
    simp only [hsplit, hpop, hlast, hfold]
  · intro s m hok v hmem
    unfold element_count_from_sum_formula at hok
    rcases reSplitAux_false_head s [] with ⟨tl, htl, _⟩
    simp only [List.reverse_nil, List.nil_append] at htl
    have htw : ∀ c ∈ s.takeWhile (fun c => !isDig c), isDig c = false := by
      intro c hc
      have := List.mem_takeWhile_imp hc
      simpa using this
    cases hT : pyPop (reSplitDigits s) with
    | nil =>
      simp only [hT] at hok
      exact absurd hok (by simp)
    | cons t₀ toks' =>
      have ht0 : ∀ c ∈ t₀, isDig c = false := by
        have hsplit : reSplitDigits s = (s.takeWhile (fun c => !isDig c)) :: tl := htl
        rw [hsplit] at hT
        cases tl with
        | nil =>
          by_cases htwn : s.takeWhile (fun c => !isDig c) = []
          · rw [htwn] at hT
            have : pyPop [([] : Str)] = [] := rfl
            rw [this] at hT
            cases hT
          · rw [pyPop_singleton htwn] at hT
            simp only [List.cons.injEq] at hT
            rw [← hT.1]
            exact htw
        | cons d tl' =>
          rw [pyPop_cons _ (List.cons_ne_nil d tl')] at hT
          simp only [List.cons.injEq] at hT
          rw [← hT.1]
          exact htw
      simp only [hT, getLast?_eq_getLastD ([] : Str) (t₀ :: toks') (by simp)] at hok
      cases hpt : processToken ([], []) t₀ with
      | error e =>
        rw [foldE_cons_err toks' hpt] at hok
        exact absurd hok (by simp)
      | ok st₁ =>
        have hcaps : findallCaps t₀ ≠ [] := by
          intro hc
          rw [processToken_caps_nil _ _ hc, pyInt_no_digit ht0] at hpt
          exact absurd hpt (by simp)
        have hinv₁ := processToken_inv hpt (by intro q hq; cases hq) (Or.inr hcaps)
        rw [foldE_cons_ok toks' hpt] at hok
        cases hfold : foldE processToken st₁ toks' with
        | error e =>
          rw [hfold] at hok
          exact absurd hok (by simp)
        | ok st₂ =>
          have hinv₂ := foldE_processToken_inv toks' st₁ st₂ hinv₁.1 hinv₁.2 hfold
          simp only [hfold] at hok
          by_cases hcond : pyIsAlpha ((t₀ :: toks').getLastD []) = true
          · rw [if_pos hcond] at hok
            simp only [Except.ok.injEq] at hok
            rw [← hok] at hmem
            exact keys_good_insert hinv₂.2 hinv₂.1 ([], v) hmem rfl
          · rw [if_neg hcond] at hok
            simp only [Except.ok.injEq] at hok
            rw [← hok] at hmem
            exact hinv₂.2 ([], v) hmem rfl

/-- C8 witness: the formula `2H` fails; the formula `H` succeeds without an
empty-string key. -/
theorem claim_C8_witness :
    ((∃ c ∈ (['2','H'] : Str), isDig c = true) ∧
      element_count_from_sum_formula ['2','H'] =
        .error (.intParse (['2','H'].takeWhile (fun c => !isDig c)))) ∧
    (element_count_from_sum_formula ['H'] = .ok [(['H'], 1)] ∧
      ([], (5 : Int)) ∉ ([(['H'], 1)] : List (Str × Int))) :=
  ⟨⟨by decide, claim_C8_digit_without_element.1 ['2','H'] (by decide) (by decide)⟩,
    by decide,
    claim_C8_digit_without_element.2 ['H'] [(['H'], 1)] (by decide) 5⟩

/-! Dict lookup of the scan result in terms of the last matching pair. -/

theorem dictGet_foldl : ∀ (ps : List (Str × Option Str)) (d : List (Str × Int)) (s : Str),
    pyDictGet? (ps.foldl (fun d p => pyDictInsert d p.1 (pairCount p)) d) s =
      (match (ps.filter (fun p => decide (p.1 = s))).getLast? with
       | some p => some (pairCount p)
       | none => pyDictGet? d s) := by
  intro ps
  induction ps with
  | nil => intro d s; rfl
  | cons p ps ih =>
    intro d s
    simp only [List.foldl_cons, List.filter_cons]
    by_cases hp : p.1 = s
    · rw [if_pos (by simpa using hp)]
      rw [ih]
      cases hlast : (ps.filter (fun p => decide (p.1 = s))).getLast? with
      | some q =>
        have hne : ps.filter (fun p => decide (p.1 = s)) ≠ [] := by
          intro he
          rw [he] at hlast
          cases hlast
        have hcc : (p :: ps.filter (fun p => decide (p.1 = s))).getLast? =
            (ps.filter (fun p => decide (p.1 = s))).getLast? := by
          cases hfe : ps.filter (fun p => decide (p.1 = s)) with
          | nil => exact absurd hfe hne
          | cons a as => rw [List.getLast?_cons_cons]
        rw [hcc, hlast]
      | none =>
        have hfe : ps.filter (fun p => decide (p.1 = s)) = [] :=
          List.getLast?_eq_none_iff.mp hlast
        rw [hfe]
        simp only [List.getLast?_singleton]
        rw [← hp]
        exact pyDictGet?_insert_self d p.1 (pairCount p)
    · rw [if_neg (by simpa using hp)]
      rw [ih]
      cases hlast : (ps.filter (fun p => decide (p.1 = s))).getLast? with
      | some q => rfl
      | none =>
        simp only
        exact pyDictGet?_insert_ne d p.1 s (pairCount p) (fun e => hp e.symm)

/-- C9: when the same element symbol occurs in more than one symbol/count pair
of a well-formed sum formula, the returned count for that symbol is the one
derived from its last occurrence — later occurrences overwrite earlier ones. -/
theorem claim_C9_last_occurrence_wins (ps : List (Str × Option Str)) (s : Str)
    (h : wfPairs ps = true) (hcount : 2 ≤ ((ps.map Prod.fst).count s)) :
    ∃ m, element_count_from_sum_formula (renderPairs ps) = .ok m ∧
      pyDictGet? m s =
        some (pairCount ((ps.filter (fun p => decide (p.1 = s))).getLastD (s, none))) := by
  have hne : ps ≠ [] := by
    intro he
    subst he
    simp at hcount
  refine ⟨pyDictOf ps, ec_render h hne, ?_⟩
  unfold pyDictOf
  rw [dictGet_foldl]
  have hmem : s ∈ ps.map Prod.fst := List.count_pos_iff.mp (by omega)
  rcases List.mem_map.mp hmem with ⟨p, hp, hps⟩
  have hfne : ps.filter (fun p => decide (p.1 = s)) ≠ [] := by
    intro he
    have hpin : p ∈ ps.filter (fun p => decide (p.1 = s)) :=
      List.mem_filter.mpr ⟨hp, by simpa using hps⟩
    rw [he] at hpin
    cases hpin
  rcases Option.ne_none_iff_exists'.mp
    (fun he => hfne (List.getLast?_eq_none_iff.mp he)) with ⟨q, hq⟩
  rw [hq, List.getLastD_eq_getLast?, hq]
  rfl

/-- C9 witness: the formula `H2OH`, in which `H` appears twice and ends with
count 1. -/
theorem claim_C9_witness :
    wfPairs [(['H'], some ['2']), (['O'], none), (['H'], none)] = true ∧
    2 ≤ (([(['H'], some ['2']), (['O'], none), (['H'], none)].map Prod.fst).count ['H']) ∧
    ∃ m, element_count_from_sum_formula
        (renderPairs [(['H'], some ['2']), (['O'], none), (['H'], none)]) = .ok m ∧
      pyDictGet? m ['H'] =
        some (pairCount (([(['H'], some ['2']), (['O'], none), (['H'], none)].filter
          (fun p => decide (p.1 = ['H']))).getLastD (['H'], none))) :=
  ⟨by decide, by decide,
    claim_C9_last_occurrence_wins [(['H'], some ['2']), (['O'], none), (['H'], none)] ['H']
      (by decide) (by decide)⟩

/-! Decimal rendering and the edge extractor. -/

theorem isDig_digitOf (k : Nat) : isDig (digitOf k) = true := by
  unfold digitOf
  split <;> decide

theorem toNat_digitOf {k : Nat} (h : k < 10) : (digitOf k).toNat = 48 + k := by
  interval_cases k <;> rfl

theorem natRenderAux_digits : ∀ (f n : Nat), ∀ c ∈ natRenderAux f n, isDig c = true := by
  intro f
  induction f with
  | zero => intro n c hc; cases hc
  | succ f ih =>
    intro n c hc
    unfold natRenderAux at hc
    by_cases h10 : n < 10
    · rw [if_pos h10] at hc
      simp only [List.mem_singleton] at hc
      rw [hc]
      exact isDig_digitOf n
    · rw [if_neg h10] at hc
      rcases List.mem_append.mp hc with hc | hc
      · exact ih (n / 10) c hc
      · simp only [List.mem_singleton] at hc
        rw [hc]
        exact isDig_digitOf (n % 10)

theorem natRender_digits (n : Nat) : ∀ c ∈ natRender n, isDig c = true :=
  natRenderAux_digits (n + 1) n

theorem natRender_ne_nil (n : Nat) : natRender n ≠ [] := by
  unfold natRender natRenderAux
  by_cases h10 : n < 10
  · rw [if_pos h10]; simp
  · rw [if_neg h10]; simp

theorem digitsVal_append_digit (l : Str) (c : Char) :
    digitsVal (l ++ [c]) = 10 * digitsVal l + (c.toNat - 48) := by
  unfold digitsVal
  rw [List.foldl_append]
  rfl

theorem natRenderAux_val : ∀ (f n : Nat), n < f → digitsVal (natRenderAux f n) = n := by
  intro f
  induction f with
  | zero => intro n h; omega
  | succ f ih =>
    intro n h
    unfold natRenderAux
    by_cases h10 : n < 10
    · rw [if_pos h10]
      show digitsVal ([] ++ [digitOf n]) = n
      rw [digitsVal_append_digit, toNat_digitOf h10]
      simp [digitsVal]
    · rw [if_neg h10]
      rw [digitsVal_append_digit, toNat_digitOf (Nat.mod_lt n (by omega))]
      rw [ih (n / 10) (by
        have h1 : n / 10 < n := Nat.div_lt_self (by omega) (by omega)
        omega)]
      omega

theorem natRender_val (n : Nat) : digitsVal (natRender n) = n :=
  natRenderAux_val (n + 1) n (Nat.lt_succ_self n)

theorem pyInt_natRender (n : Nat) : pyInt (natRender n) = .ok (Int.ofNat n) := by
  rw [pyInt_digits (natRender_ne_nil n) (natRender_digits n), natRender_val]

theorem mapE_nil {α β : Type} (f : α → Except Err β) : mapE f [] = .ok [] := rfl

theorem mapE_cons_ok {α β : Type} {f : α → Except Err β} {a : α} {b : β} {as : List α}
    {bs : List β} (h : f a = .ok b) (h2 : mapE f as = .ok bs) :
    mapE f (a :: as) = .ok (b :: bs) := by
  unfold mapE
  rw [h, h2]

theorem mapE_cons_err1 {α β : Type} {f : α → Except Err β} {a : α} {e : Err} (as : List α)
    (h : f a = .error e) : mapE f (a :: as) = .error e := by
  unfold mapE
  rw [h]

theorem mapE_cons_err2 {α β : Type} {f : α → Except Err β} {a : α} {b : β} {e : Err}
    {as : List α} (h : f a = .ok b) (h2 : mapE f as = .error e) :
    mapE f (a :: as) = .error e := by
  unfold mapE
  rw [h, h2]

theorem renderEdges_nil : renderEdges [] = [] := rfl

theorem renderEdges_cons (a b : Nat) (ps : List (Nat × Nat)) :
    renderEdges ((a, b) :: ps) =
      ('(' :: (natRender a ++ '-' :: natRender b)) ++ ')' :: renderEdges ps := by
  show '(' :: (natRender a ++ '-' :: (natRender b ++ ')' :: renderEdges ps)) = _
  simp [List.append_assoc]

theorem seg_no_rparen (a b : Nat) :
    ∀ c ∈ '(' :: (natRender a ++ '-' :: natRender b), c ≠ ')' := by
  intro c hc
  rcases List.mem_cons.mp hc with rfl | hc
  · decide
  · rcases List.mem_append.mp hc with hc | hc
    · exact isDig_ne_rparen (natRender_digits a c hc)
    · rcases List.mem_cons.mp hc with rfl | hc
      · decide
      · exact isDig_ne_rparen (natRender_digits b c hc)

theorem pySplit_renderEdges : ∀ ps : List (Nat × Nat),
    pySplitChar (renderEdges ps) ')' =
      ps.map (fun p => '(' :: (natRender p.1 ++ '-' :: natRender p.2)) ++ [[]] := by
  intro ps
  induction ps with
  | nil => rfl
  | cons p ps ih =>
    rcases p with ⟨a, b⟩
    rw [renderEdges_cons]
    unfold pySplitChar
    rw [pySplitAux_seg _ ')' _ [] (seg_no_rparen a b)]
    unfold pySplitChar at ih
    rw [ih]
    simp

theorem parse_one_edge (a b : Nat) :
    mapE pyInt (pySplitChar (natRender a ++ '-' :: natRender b) '-') =
      .ok [Int.ofNat a, Int.ofNat b] := by
  unfold pySplitChar
  rw [pySplitAux_seg _ '-' _ [] (fun c hc => isDig_ne_minus (natRender_digits a c hc))]
  rw [pySplitAux_no_sep _ '-' [] (fun c hc => isDig_ne_minus (natRender_digits b c hc))]
  simp only [List.reverse_nil, List.nil_append]
  exact mapE_cons_ok (pyInt_natRender a) (mapE_cons_ok (pyInt_natRender b) (mapE_nil pyInt))

theorem mapE_rendered_edges : ∀ ps : List (Nat × Nat),
    mapE (fun edge => mapE pyInt (pySplitChar edge '-'))
      (ps.map (fun p => natRender p.1 ++ '-' :: natRender p.2)) =
      .ok (ps.map (fun p => [Int.ofNat p.1, Int.ofNat p.2])) := by
  intro ps
  induction ps with
  | nil => rfl
  | cons p ps ih =>
    rcases p with ⟨a, b⟩
    simp only [List.map_cons]
    exact mapE_cons_ok (parse_one_edge a b) ih

/-- C6: for a well-formed edge section that is the concatenation of bracketed
pairs, `tucan_string_to_graph_edges` emits the pairs in exactly their
left-to-right order, each in its written `(a, b)` order. -/
theorem claim_C6_edge_order_preserved (s : Str) (ps : List (Nat × Nat))
    (h : (pySplitChar s '/').get? 1 = some (renderEdges ps)) :
    tucan_string_to_graph_edges s =
      .ok (ps.map (fun p => [Int.ofNat p.1, Int.ofNat p.2])) := by
  unfold tucan_string_to_graph_edges
  simp only [h]
  simp only [edgesOfSection]
  rw [pySplit_renderEdges, List.dropLast_concat, List.map_map]
  have hcomp : ((fun e : Str => e.drop 1) ∘
      fun p : Nat × Nat => '(' :: (natRender p.1 ++ '-' :: natRender p.2)) =
      fun p : Nat × Nat => natRender p.1 ++ '-' :: natRender p.2 := by
    funext p
    simp
  rw [hcomp]
  exact mapE_rendered_edges ps

/-- C6 witness: the spec's example edge section `(1-5)(2-5)(3-6)`. -/
theorem claim_C6_witness :
    (pySplitChar ['C','/','(','1','-','5',')','(','2','-','5',')','(','3','-','6',')'] '/').get? 1 =
      some (renderEdges [(1, 5), (2, 5), (3, 6)]) ∧
    tucan_string_to_graph_edges
        ['C','/','(','1','-','5',')','(','2','-','5',')','(','3','-','6',')'] =
      .ok ([(1, 5), (2, 5), (3, 6)].map (fun p : Nat × Nat => [Int.ofNat p.1, Int.ofNat p.2])) :=
  ⟨by decide,
    claim_C6_edge_order_preserved
      ['C','/','(','1','-','5',')','(','2','-','5',')','(','3','-','6',')']
      [(1, 5), (2, 5), (3, 6)] (by decide)⟩

theorem mapE_pyInt_error_shape : ∀ (l : List Str) (e : Err), mapE pyInt l = .error e →
    ∃ t, e = .intParse t := by
  intro l
  induction l with
  | nil =>
    intro e h
    exact absurd h (by simp [mapE_nil])
  | cons a as ih =>
    intro e h
    cases hpa : pyInt a with
    | error e' =>
      rw [mapE_cons_err1 as hpa] at h
      simp only [Except.error.injEq] at h
      exact ⟨a, by rw [← h]; exact pyInt_error_shape hpa⟩
    | ok b =>
      cases hrest : mapE pyInt as with
      | error e' =>
        rw [mapE_cons_err2 hpa hrest] at h
        simp only [Except.error.injEq] at h
        rcases ih e' hrest with ⟨t, ht⟩
        exact ⟨t, by rw [← h]; exact ht⟩
      | ok bs =>
        rw [mapE_cons_ok hpa hrest] at h
        exact absurd h (by simp)

theorem mapE_error_isOk_false {α β : Type} {f : α → Except Err β}
    (hshape : ∀ (a : α) (e : Err), f a = .error e → ∃ t, e = .intParse t) :
    ∀ l : List α, (∃ a ∈ l, (f a).isOk = false) →
      ∃ t, mapE f l = .error (.intParse t) := by
  intro l
  induction l with
  | nil => rintro ⟨a, ha, _⟩; cases ha
  | cons a as ih =>
    rintro ⟨x, hx, hxf⟩
    cases hfa : f a with
    | error e =>
      rcases hshape a e hfa with ⟨t, rfl⟩
      exact ⟨t, mapE_cons_err1 as hfa⟩
    | ok b =>
      have hxtail : x ∈ as := by
        rcases List.mem_cons.mp hx with rfl | h'
        · rw [hfa] at hxf
          exact absurd hxf (by
            intro hc
            have : (Except.ok b : Except Err β).isOk = true := rfl
            rw [hc] at this
            cases this)
        · exact h'
      rcases ih ⟨x, hxtail, hxf⟩ with ⟨t, ht⟩
      exact ⟨t, mapE_cons_err2 hfa ht⟩

/-- C3 (amended): if some `)`-delimited edge segment has a `-`-separated part
that is not a valid integer, `tucan_string_to_graph_edges` fails with an
integer-parse error — such segments are never silently skipped. -/
theorem claim_C3_invalid_part_errors (s e : Str)
    (hsec : (pySplitChar s '/').get? 1 = some e)
    (hbad : ∃ seg ∈ (pySplitChar e ')').dropLast,
      ∃ part ∈ pySplitChar (seg.drop 1) '-', (pyInt part).isOk = false) :
    ∃ t, tucan_string_to_graph_edges s = .error (.intParse t) := by
  unfold tucan_string_to_graph_edges
  simp only [hsec]
  simp only [edgesOfSection]
  apply mapE_error_isOk_false
  · intro a e' ha
    exact mapE_pyInt_error_shape _ e' ha
  · rcases hbad with ⟨seg, hseg, part, hpart, hfail⟩
    refine ⟨seg.drop 1, List.mem_map.mpr ⟨seg, hseg, rfl⟩, ?_⟩
    rcases mapE_error_isOk_false
      (fun a e' ha => ⟨a, pyInt_error_shape ha⟩) _ ⟨part, hpart, hfail⟩ with ⟨t, ht⟩
    rw [ht]
    rfl

/-- C3 witness: the malformed segment `(x-2)` with a non-numeric part. -/
theorem claim_C3_witness :
    (pySplitChar ['C','/','(','x','-','2',')'] '/').get? 1 = some ['(','x','-','2',')'] ∧
    (∃ seg ∈ (pySplitChar ['(','x','-','2',')'] ')').dropLast,
      ∃ part ∈ pySplitChar (seg.drop 1) '-', (pyInt part).isOk = false) ∧
    ∃ t, tucan_string_to_graph_edges ['C','/','(','x','-','2',')'] =
      .error (.intParse t) :=
  ⟨by decide, by decide,
    claim_C3_invalid_part_errors ['C','/','(','x','-','2',')'] ['(','x','-','2',')']
      (by decide) (by decide)⟩

/-- C3 counterexample: the segment `(1-2-3)` does not split on `-` into exactly
two integers, yet the function raises no error and returns an arity-3 tuple,
refuting the claim as stated. -/
theorem claim_C3_counterexample :
    (pySplitChar ['C','/','(','1','-','2','-','3',')'] '/').get? 1 =
      some ['(','1','-','2','-','3',')'] ∧
    (pySplitChar ['(','1','-','2','-','3',')'] ')').dropLast = [['(','1','-','2','-','3']] ∧
    (pySplitChar (['(','1','-','2','-','3'].drop 1) '-').length = 3 ∧
    tucan_string_to_graph_edges ['C','/','(','1','-','2','-','3',')'] =
      .ok [[1, 2, 3]] := by decide

/-- C10 (amended): when the edge section contains no `)` at all (including the
empty section) the extractor raises no error and returns the empty edge list;
and appending `)`-free content after the last `)` of an edge section never
changes the result — it is silently discarded. -/
theorem claim_C10_trailing_content_discarded :
    (∀ (s e : Str), (pySplitChar s '/').get? 1 = some e → (∀ c ∈ e, c ≠ ')') →
      tucan_string_to_graph_edges s = .ok []) ∧
    (∀ (e j : Str), (∀ c ∈ j, c ≠ ')') →
      edgesOfSection (e ++ j) = edgesOfSection e) := by
  constructor
  · intro s e hsec hnop
    unfold tucan_string_to_graph_edges
    simp only [hsec]
    simp only [edgesOfSection]
    unfold pySplitChar
    rw [pySplitAux_no_sep e ')' [] hnop]
    rfl
  · intro e j hj
    simp only [edgesOfSection]
    unfold pySplitChar
    rw [pySplitAux_append_no_sep e j ')' [] hj]
    rw [List.dropLast_concat]

/-- C10 witness: an empty edge section, and junk after the final bracket. -/
theorem claim_C10_witness :
    ((pySplitChar ['C','/'] '/').get? 1 = some [] ∧
      tucan_string_to_graph_edges ['C','/'] = .ok []) ∧
    (edgesOfSection (['(','1','-','2',')'] ++ ['x','y']) =
      edgesOfSection ['(','1','-','2',')']) :=
  ⟨⟨by decide,
    claim_C10_trailing_content_discarded.1 ['C','/'] [] (by decide) (by decide)⟩,
    claim_C10_trailing_content_discarded.2 ['(','1','-','2',')'] ['x','y'] (by decide)⟩

/-- C10 counterexample: the edge section `(a-b)x` does not end in `)`, yet the
call raises an integer-parse error (from the earlier malformed segment), so
"raises no error" does not hold for every such input. -/
theorem claim_C10_counterexample :
    (pySplitChar ['C','/','(','a','-','b',')','x'] '/').get? 1 =
      some ['(','a','-','b',')','x'] ∧
    ['(','a','-','b',')','x'].getLast? = some 'x' ∧
    tucan_string_to_graph_edges ['C','/','(','a','-','b',')','x'] =
      .error (.intParse ['a']) := by decide
